import Mathlib

/-!
Verification development for `src/question-generation/interact.py`.

The file shallowly embeds the decoding/sampling core of the repository:
the logits filter `top_filtering`, the autoregressive sampler
`sample_sequence`, the run loop's cache management, and the result
assembler.  Real-valued scores are embedded as `EReal` values because the
Python code writes `-inf` into the score tensor (both as the filter
sentinel `filter_value` and as the default `threshold`) and subsequently
takes softmax over vectors containing `-inf`, where `exp (-inf) = 0`.
-/

namespace Squash

/-- Exponential `exp` extended to `EReal`: the sentinel `⊥` (representing `-inf`) has
weight `0`, matching `exp (-inf) = 0`.  (`⊤` never occurs in this
development: inputs are real and the filter only ever writes `⊥`.) -/
noncomputable def eexp (x : EReal) : ℝ :=
  if x = ⊥ then 0 else Real.exp x.toReal

/-- Softmax `F.softmax` over an `EReal` score vector, as the code applies it to
(possibly already filtered) logits. -/
noncomputable def softmaxE (l : List EReal) : List ℝ :=
  l.map fun x => eexp x / (l.map eexp).sum

/-- Cumulative sums `torch.cumsum`: running sums of a real vector. -/
def cumsum (l : List ℝ) : List ℝ :=
  (List.range l.length).map fun i => (l.take (i + 1)).sum

/-- value part of `torch.sort(·, descending=True)` (a stable sort). -/
noncomputable def sortDesc (l : List EReal) : List EReal :=
  l.insertionSort fun x y => y ≤ x

/-- index part of `torch.sort(·, descending=True)`: a stable argsort,
mapping sorted positions to original vocabulary indices. -/
noncomputable def argsortDesc (l : List EReal) : List ℕ :=
  (List.range l.length).insertionSort fun i j => l.getD j ⊥ ≤ l.getD i ⊥

/-- rule 1 of `top_filtering` (interact.py, lines 33-37): if
`0 < min top_k n`, every entry strictly below the k-th largest score is
replaced by `filter_value`
(`logits < torch.topk(logits, top_k)[0][..., -1]`). -/
noncomputable def topkStep (logits : List EReal) (top_k : ℕ) (filter_value : EReal) :
    List EReal :=
  if 0 < min top_k logits.length then
    logits.map fun x =>
      if x < (sortDesc logits).getD (min top_k logits.length - 1) ⊥ then filter_value
      else x
  else logits

/-- the shifted removal mask of the nucleus step (interact.py, lines 45-48):
`cumulative_probabilities > top_p`, shifted right by one sorted position,
with position 0 forced to "keep". -/
noncomputable def nucleusFlags (l1 : List EReal) (top_p : ℝ) : List Bool :=
  let sorted_logits := (argsortDesc l1).map fun i => l1.getD i ⊥
  let cumulative := cumsum (softmaxE sorted_logits)
  false :: (cumulative.map fun c => decide (top_p < c)).dropLast

/-- original-vocabulary indices removed by the nucleus step
(interact.py, line 51: `sorted_indices[sorted_indices_to_remove]`). -/
noncomputable def nucleusRemove (l1 : List EReal) (top_p : ℝ) : List ℕ :=
  ((argsortDesc l1).zip (nucleusFlags l1 top_p)).filterMap fun ib =>
    if ib.2 then some ib.1 else none

/-- rule 2 of `top_filtering` (interact.py, lines 39-52): nucleus (top-p)
filtering of the current state `l1` of the vector. -/
noncomputable def nucleusStep (l1 : List EReal) (top_p : ℝ) (filter_value : EReal) :
    List EReal :=
  if 0 < top_p then
    (List.range l1.length).map fun j =>
      if j ∈ nucleusRemove l1 top_p then filter_value else l1.getD j ⊥
  else l1

/-- rule 3 of `top_filtering` (interact.py, lines 54-55): entries strictly
below `threshold` are replaced by `filter_value`. -/
noncomputable def threshStep (l2 : List EReal) (threshold : EReal) (filter_value : EReal) :
    List EReal :=
  l2.map fun x => if x < threshold then filter_value else x

/-- Shallow embedding of `top_filtering` (interact.py, lines 21-57): the
three rules compose in order, each operating on the current state of the
vector.  The Python `top_k` is an `int` with `top_k <= 0` meaning
"disabled"; it is embedded as `ℕ` with `0` meaning "disabled", which has
identical behaviour.  In the source both `threshold` and `filter_value`
default to `-inf` (`⊥`). -/
noncomputable def top_filtering (logits : List EReal) (top_k : ℕ) (top_p : ℝ)
    (threshold : EReal) (filter_value : EReal) : List EReal :=
  threshStep (nucleusStep (topkStep logits top_k filter_value) top_p filter_value)
    threshold filter_value

/-- softmax of the raw (real) input scores, used to state the nucleus mass
property of C1. -/
noncomputable def softmaxR (l : List ℝ) : List ℝ :=
  softmaxE (l.map Real.toEReal)

/-- positions of the surviving (non-sentinel) entries of a filtered vector. -/
noncomputable def survivors (out : List EReal) : Finset ℕ :=
  (Finset.range out.length).filter fun j => out.getD j ⊥ ≠ ⊥

/-- softmax-probability mass (with respect to the raw input scores `l`) of
the surviving entries of `out`. -/
noncomputable def survivingMass (l : List ℝ) (out : List EReal) : ℝ :=
  ∑ j ∈ survivors out, (softmaxR l).getD j 0

/-! ### The sampler, run loop and assembler (interact.py, lines 60-205) -/

/-- An input instance (spec §3): paragraph and answer are token-id
sequences; `qclass` and `algorithm` stand for the Python `class` and
`algorithm` labels; `question` is filled in by generation. -/
structure Inst where
  paragraph : List ℕ
  answer : List ℕ
  question : List ℕ
  qclass : ℕ
  algorithm : ℕ
  para_index : ℕ
deriving DecidableEq

/-- GenerationConfig (spec §3): the recognised decoding options. -/
structure Args where
  max_length : ℕ
  min_length : ℕ
  temperature : ℝ
  top_k : ℕ
  top_p : ℝ
  no_sample : Bool

/-- Greedy pick `torch.topk(probs, 1)[1]`: index of the (first) maximal entry. -/
noncomputable def argmaxIdx (l : List ℝ) : ℕ :=
  (List.range l.length).foldl (fun b i => if l.getD b 0 < l.getD i 0 then i else b) 0

/-- the rejection loop of the early-termination guard (interact.py, lines
87-88): repeatedly draw from the SAME distribution `probs` until the
drawn token is not special.  `draw j probs` is the outcome of the j-th
`torch.multinomial(probs, 1)` call; `fuel` bounds the unrolling, the
Python loop being unbounded (`none` models not exiting within `fuel`
draws). -/
def resampleLoop (special : List ℕ) (probs : List ℝ) (draw : ℕ → List ℝ → ℕ) :
    ℕ → ℕ → Option ℕ
  | 0, _ => none
  | fuel + 1, j =>
    if draw j probs ∈ special then resampleLoop special probs draw fuel (j + 1)
    else some (draw j probs)

/-- result of the generation loop: the generated question tokens (`none`
when the guard never draws a non-special token within its fuel), whether
the guard was entered, the final value of the function-local `past`, and
the (input_ids, token_type_ids) pairs fed to the model. -/
structure GenResult (P : Type) where
  question : Option (List ℕ)
  guardUsed : Bool
  pastFinal : P
  calls : List (List ℕ × List ℕ)

/-- one iteration's next-token distribution (interact.py, lines 81-83):
scale the last-position logits by `1 / temperature`, filter with the
configured `top_k` / `top_p` (threshold left at its default), softmax. -/
noncomputable def stepProbs (args : Args) (lg : List ℝ) : List ℝ :=
  softmaxE (top_filtering ((lg.map fun x => x / args.temperature).map Real.toEReal)
    args.top_k args.top_p ⊥ ⊥)

/-- token selection (interact.py, line 85): greedy argmax under
`no_sample`, otherwise the iteration's first `torch.multinomial` draw. -/
noncomputable def selectTok (args : Args) (ω : ℕ → ℕ → List ℝ → ℕ) (i : ℕ)
    (probs : List ℝ) : ℕ :=
  if args.no_sample then argmaxIdx probs else ω i 0 probs

/-- the decoding loop of `sample_sequence` (interact.py, lines 73-96).
`M` is the language-model collaborator (spec §6): given input ids, token
type ids and a cached state, it returns the next-token logits and the
updated state.  `ω i j probs` models the outcome of the j-th
`torch.multinomial` call of iteration `i` on distribution `probs` (`j = 0`
for the sampling draw of line 85, `j ≥ 1` for the guard redraws of line
88).  `r` counts the remaining iterations (`max_length - i`).  Each
iteration computes `stepProbs`, selects a token, applies the
pre-`min_length` guard, stops before emitting any special token, and
otherwise feeds the single new token (with the constant token type) and
the cached state back to the model. -/
noncomputable def genLoop {P : Type}
    (M : List ℕ → List ℕ → Option P → List ℝ × P)
    (special : List ℕ) (args : Args) (ω : ℕ → ℕ → List ℝ → ℕ) (gf : ℕ)
    (ttype : ℕ) : ℕ → ℕ → List ℝ → P → List ℕ → GenResult P
  | 0, _, _, past, acc => ⟨some acc, false, past, []⟩
  | r + 1, i, lg, past, acc =>
    if i < args.min_length ∧ selectTok args ω i (stepProbs args lg) ∈ special then
      match resampleLoop special (stepProbs args lg) (fun j d => ω i j d) gf 1 with
      | none => ⟨none, true, past, []⟩
      | some prev =>
        if prev ∈ special then ⟨some acc, true, past, []⟩
        else
          let st := M [prev] [ttype] (some past)
          let rest := genLoop M special args ω gf ttype r (i + 1) st.1 st.2 (acc ++ [prev])
          ⟨rest.question, true, rest.pastFinal, ([prev], [ttype]) :: rest.calls⟩
    else
      if selectTok args ω i (stepProbs args lg) ∈ special then ⟨some acc, false, past, []⟩
      else
        let st := M [selectTok args ω i (stepProbs args lg)] [ttype] (some past)
        let rest := genLoop M special args ω gf ttype r (i + 1) st.1 st.2
          (acc ++ [selectTok args ω i (stepProbs args lg)])
        ⟨rest.question, rest.guardUsed, rest.pastFinal,
          ([selectTok args ω i (stepProbs args lg)], [ttype]) :: rest.calls⟩

/-- the shared tail of one decoding iteration (interact.py, lines 93-96):
feed the selected token (with the constant token type) and the cached
state to the model, continue the loop with the token appended, and record
the call. -/
noncomputable def genStep {P : Type}
    (M : List ℕ → List ℕ → Option P → List ℝ × P)
    (special : List ℕ) (args : Args) (ω : ℕ → ℕ → List ℝ → ℕ) (gf : ℕ)
    (ttype : ℕ) (prev : ℕ) (r i : ℕ) (past : P) (acc : List ℕ) : GenResult P :=
  let st := M [prev] [ttype] (some past)
  let rest := genLoop M special args ω gf ttype r (i + 1) st.1 st.2 (acc ++ [prev])
  ⟨rest.question, rest.guardUsed, rest.pastFinal, ([prev], [ttype]) :: rest.calls⟩

/-- result of `sample_sequence`: the instance with the generated question
(and its paragraph restored), or `none` when the guard failed to draw a
non-special token within its fuel; plus the observables of the run. -/
structure SampleResult (P : Type) where
  inst : Option Inst
  guardUsed : Bool
  pastFinal : P
  calls : List (List ℕ × List ℕ)

/-- Shallow embedding of `sample_sequence` (interact.py, lines 60-98).
`buildInput` models `build_input_from_segments` from `train.py`, a file
not under `src/`; per the spec (§4.2) it builds the decoder input from the
instance's structural segments, and it stays abstract here (a collaborator
parameter), its Boolean argument playing the role of `with_eos`.  The code
empties the instance's `question` and `paragraph` fields before building
(lines 62-65), drops the leading token of the built input (`[1:]`, line
67, "remove extra eos"), performs exactly one model call on that input
(line 70) before the loop, and uses the last `token_type_id` of the built
input for every incrementally fed token (line 71).  The returned instance
keeps its original paragraph (line 97) and carries the generated question
(line 96). -/
noncomputable def sampleSequence {P : Type}
    (M : List ℕ → List ℕ → Option P → List ℝ × P)
    (buildInput : Bool → Inst → List ℕ × List ℕ)
    (special : List ℕ) (args : Args) (ω : ℕ → ℕ → List ℝ → ℕ) (gf : ℕ)
    (inst : Inst) (past : Option P) : SampleResult P :=
  let built := buildInput false { inst with question := [], paragraph := [] }
  let input_ids := built.1.drop 1
  let token_type_ids := built.2.drop 1
  let st := M input_ids token_type_ids past
  let ttype := built.2.getLastD 0
  let r := genLoop M special args ω gf ttype args.max_length 0 st.1 st.2 []
  { inst := r.question.map fun q => { inst with question := q },
    guardUsed := r.guardUsed,
    pastFinal := r.pastFinal,
    calls := (input_ids, token_type_ids) :: r.calls }

/-- one generated QA record of the output document (spec §3, §4.5). -/
structure QA where
  id : ℕ
  question : List ℕ
  answerText : List ℕ
  answerStart : ℕ
  qclass : ℕ
  algorithm : ℕ
  is_impossible : Bool
deriving DecidableEq

/-- one paragraph entry of the output document. -/
structure Para where
  context : List ℕ
  qas : List QA
deriving DecidableEq

/-- the two abort modes of the assembler: the failed `assert` of line 172
(paragraph text mismatch) and the `ValueError` of `str.index` (lines 179
and 194, decoded answer not found in the decoded paragraph). -/
inductive AsmErr where
  | paragraphMismatch
  | answerNotFound
deriving DecidableEq

/-- Python `str.index`: position of the first occurrence of `sub` inside
`s`, or `none` (a `ValueError` in Python) when `sub` does not occur. -/
def subIndex (s sub : List ℕ) : Option ℕ :=
  (List.range (s.length + 1)).find? fun i => sub.isPrefixOf (s.drop i)

/-- Shallow embedding of the assembler part of the run loop (interact.py,
lines 163-202): decode the paragraph (without skipping special tokens),
question and answer (skipping special tokens); if a paragraph entry
already exists at position `para_index` (`len(paragraphs) > para_index`),
assert the decoded paragraph equals the stored context and append a QA
record to its list, else append a new paragraph entry at the END of the
list.  `decode toks skip` models
`tokenizer.decode(toks, skip_special_tokens=skip)`. -/
def assembleStep (decode : List ℕ → Bool → List ℕ)
    (paragraphs : List Para) (qnum : ℕ) (out : Inst) : Except AsmErr (List Para) :=
  let original_paragraph := decode out.paragraph false
  let generated_question := decode out.question true
  let original_answer := decode out.answer true
  if h : out.para_index < paragraphs.length then
    if original_paragraph = (paragraphs.get ⟨out.para_index, h⟩).context then
      match subIndex original_paragraph original_answer with
      | some st =>
        Except.ok (paragraphs.set out.para_index
          { paragraphs.get ⟨out.para_index, h⟩ with
            qas := (paragraphs.get ⟨out.para_index, h⟩).qas ++
              [⟨qnum, generated_question, original_answer, st, out.qclass,
                out.algorithm, false⟩] })
      | none => Except.error AsmErr.answerNotFound
    else Except.error AsmErr.paragraphMismatch
  else
    match subIndex original_paragraph original_answer with
    | some st =>
      Except.ok (paragraphs ++ [⟨original_paragraph,
        [⟨qnum, generated_question, original_answer, st, out.qclass, out.algorithm,
          false⟩]⟩])
    | none => Except.error AsmErr.answerNotFound

/-- the abort modes of one run-loop step: a diverging resampling guard, or
an assembler error. -/
inductive RunErr where
  | guardDiverged
  | asm (e : AsmErr)
deriving DecidableEq

/-- run-loop state (interact.py, lines 137-145): previously processed
`para_index`, the cached model state (`None` before the first priming),
the accumulated paragraph entries, and the running question number. -/
structure RunState (P : Type) where
  prevIdx : Option ℕ
  past : Option P
  paragraphs : List Para
  qnum : ℕ

/-- per-instance observables of one run-loop step: whether the cache was
reset and re-primed, and the cached state passed to `sample_sequence`. -/
structure StepInfo (P : Type) where
  reset : Bool
  passedPast : Option P

/-- one iteration of the run loop (interact.py, lines 147-202): when the
incoming `para_index` differs from the previous one (including the very
first instance), discard the cached state and re-prime it with a single
model call on the built context minus its two trailing tokens (`[:-2]`,
lines 157-159), discarding that call's logits; then run `sample_sequence`
with the current cached state and hand the result to the assembler.
`sample_sequence` returns only the instance (Python rebinds its
function-local `past`), so the run loop's `past` is NOT updated by it. -/
noncomputable def runStep {P : Type}
    (M : List ℕ → List ℕ → Option P → List ℝ × P)
    (buildInput : Bool → Inst → List ℕ × List ℕ)
    (decode : List ℕ → Bool → List ℕ)
    (special : List ℕ) (args : Args) (ω : ℕ → ℕ → List ℝ → ℕ) (gf : ℕ)
    (s : RunState P) (inst : Inst) :
    Except RunErr (RunState P) × StepInfo P :=
  let doReset : Bool := decide (s.prevIdx ≠ some inst.para_index)
  let past1 :=
    if doReset then
      let built := buildInput false inst
      some (M built.1.dropLast.dropLast built.2.dropLast.dropLast none).2
    else s.past
  let r := sampleSequence M buildInput special args ω gf inst past1
  match r.inst with
  | none => (Except.error RunErr.guardDiverged, ⟨doReset, past1⟩)
  | some out =>
    match assembleStep decode s.paragraphs s.qnum out with
    | Except.error e => (Except.error (RunErr.asm e), ⟨doReset, past1⟩)
    | Except.ok ps =>
      (Except.ok ⟨some inst.para_index, past1, ps, s.qnum + 1⟩, ⟨doReset, past1⟩)

/-! ### Concrete collaborators and fixtures for witnesses/counterexamples -/

/-- a toy three-token model: constant zero logits; the cached state
accumulates the input ids it has seen. -/
noncomputable def Mfix : List ℕ → List ℕ → Option (List ℕ) → List ℝ × List ℕ :=
  fun ids _ p => ([0, 0, 0], p.getD [] ++ ids)

/-- a constant built input of four tokens with token type `5`. -/
def buildFix : Bool → Inst → List ℕ × List ℕ :=
  fun _ _ => ([9, 8, 7, 6], [5, 5, 5, 5])

/-- the identity tokenizer decode. -/
def decodeFix : List ℕ → Bool → List ℕ := fun toks _ => toks

/-- a concrete instance: paragraph `[1, 2]`, answer `[2]`, `para_index = 0`. -/
def instFix : Inst := ⟨[1, 2], [2], [], 0, 0, 0⟩

/-- greedy decoding, one step, no minimum length, temperature 1, no
filtering. -/
def argsFix : Args := ⟨1, 0, 1, 0, 0, true⟩

/-- like `argsFix` but with `min_length = 1`, so the guard can trigger. -/
def argsFixMin : Args := ⟨1, 1, 1, 0, 0, true⟩

/-! ### Basic lemmas about the arithmetic pieces -/

lemma eexp_bot : eexp ⊥ = 0 := by simp [eexp]

lemma eexp_coe (x : ℝ) : eexp (x : EReal) = Real.exp x := by
  simp [eexp, EReal.coe_ne_bot]

lemma eexp_nonneg (x : EReal) : 0 ≤ eexp x := by
  unfold eexp
  split
  · exact le_refl 0
  · exact (Real.exp_pos _).le

lemma eexp_pos (x : EReal) (hx : x ≠ ⊥) : 0 < eexp x := by
  unfold eexp
  rw [if_neg hx]
  exact Real.exp_pos _

lemma getD_bot_of_ge (L : List EReal) (i : ℕ) (h : L.length ≤ i) : L.getD i ⊥ = ⊥ := by
  simp [List.getD_eq_getElem?_getD, List.getElem?_eq_none h]

lemma getD_map {α β : Type*} (L : List α) (f : α → β) (da : α) (db : β) (j : ℕ)
    (hj : j < L.length) : (L.map f).getD j db = f (L.getD j da) := by
  rw [List.getD_eq_getElem _ _ (by simpa using hj), List.getElem_map,
    List.getD_eq_getElem _ _ hj]

lemma range_map_getD (L : List EReal) :
    (List.range L.length).map (fun i => L.getD i ⊥) = L := by
  apply List.ext_getElem (by simp)
  intro i h1 h2
  simp [List.getElem?_eq_getElem h2]

lemma coe_getD (l : List ℝ) (j : ℕ) (hj : j < l.length) :
    (l.map Real.toEReal).getD j ⊥ = ((l.getD j 0 : ℝ) : EReal) := by
  rw [List.getD_eq_getElem _ _ (by simpa using hj), List.getElem_map,
    List.getD_eq_getElem _ _ hj]

lemma sum_map_div (L : List ℝ) (c : ℝ) : (L.map fun x => x / c).sum = L.sum / c := by
  induction L with
  | nil => simp
  | cons a t ih => simp [ih, add_div]

lemma softmaxE_length (l : List EReal) : (softmaxE l).length = l.length := by
  simp [softmaxE]

lemma softmaxE_getD (l : List EReal) (i : ℕ) (hi : i < l.length) :
    (softmaxE l).getD i 0 = eexp (l.getD i ⊥) / (l.map eexp).sum :=
  getD_map l _ ⊥ 0 i hi

lemma eexp_sum_nonneg (l : List EReal) : 0 ≤ (l.map eexp).sum := by
  apply List.sum_nonneg
  intro x hx
  obtain ⟨y, _, rfl⟩ := List.mem_map.mp hx
  exact eexp_nonneg y

lemma softmaxE_nonneg (l : List EReal) (i : ℕ) : 0 ≤ (softmaxE l).getD i 0 := by
  by_cases hi : i < l.length
  · rw [softmaxE_getD l i hi]
    exact div_nonneg (eexp_nonneg _) (eexp_sum_nonneg l)
  · rw [List.getD_eq_getElem?_getD, List.getElem?_eq_none (by simp [softmaxE]; omega)]
    exact le_refl 0

lemma eexp_sum_pos (l : List EReal) (x : EReal) (hx : x ∈ l) (hxb : x ≠ ⊥) :
    0 < (l.map eexp).sum := by
  have h1 : eexp x ≤ (l.map eexp).sum :=
    List.single_le_sum (fun y hy => by
      obtain ⟨z, _, rfl⟩ := List.mem_map.mp hy; exact eexp_nonneg z) _
      (List.mem_map.mpr ⟨x, hx, rfl⟩)
  exact lt_of_lt_of_le (eexp_pos x hxb) h1

lemma softmaxE_sum (l : List EReal) (h : 0 < (l.map eexp).sum) : (softmaxE l).sum = 1 := by
  have he : softmaxE l = (l.map eexp).map fun x => x / (l.map eexp).sum := by
    unfold softmaxE
    rw [List.map_map]
    rfl
  rw [he, sum_map_div, div_self h.ne']

lemma cumsum_length (l : List ℝ) : (cumsum l).length = l.length := by simp [cumsum]

lemma sum_take_eq (L : List ℝ) :
    ∀ m, m ≤ L.length → (L.take m).sum = ∑ t ∈ Finset.range m, L.getD t 0
  | 0, _ => by simp
  | m + 1, h => by
      rw [List.sum_take_succ _ m (by omega), sum_take_eq L m (by omega),
        Finset.sum_range_succ, List.getD_eq_getElem _ _ (by omega)]

lemma cumsum_getD (l : List ℝ) (i : ℕ) (hi : i < l.length) :
    (cumsum l).getD i 0 = ∑ t ∈ Finset.range (i + 1), l.getD t 0 := by
  unfold cumsum
  rw [List.getD_eq_getElem _ _ (by simpa using hi), List.getElem_map, List.getElem_range]
  exact sum_take_eq l (i + 1) (by omega)

/-! ### Lemmas about the stable descending sort and argsort -/

lemma sortDesc_length (l : List EReal) : (sortDesc l).length = l.length := by
  simp [sortDesc]

lemma sortDesc_perm (l : List EReal) : (sortDesc l).Perm l :=
  List.perm_insertionSort _ _

lemma sortDesc_sorted (l : List EReal) (i j : ℕ) (hij : i ≤ j)
    (hj : j < (sortDesc l).length) :
    (sortDesc l).get ⟨j, hj⟩ ≤ (sortDesc l).get ⟨i, lt_of_le_of_lt hij hj⟩ := by
  have ht : IsTotal EReal (fun x y => y ≤ x) := ⟨fun a b => le_total b a⟩
  have htr : IsTrans EReal (fun x y => y ≤ x) := ⟨fun a b c h1 h2 => le_trans h2 h1⟩
  have hr : IsRefl EReal (fun x y => y ≤ x) := ⟨fun a => le_refl a⟩
  have hs : List.Sorted (fun x y => y ≤ x) (sortDesc l) := by
    unfold sortDesc
    exact List.sorted_insertionSort _ _
  exact hs.rel_get_of_le (a := ⟨i, lt_of_le_of_lt hij hj⟩) (b := ⟨j, hj⟩) hij

lemma argsortDesc_length (l : List EReal) : (argsortDesc l).length = l.length := by
  simp [argsortDesc]

lemma argsortDesc_perm (l : List EReal) : (argsortDesc l).Perm (List.range l.length) :=
  List.perm_insertionSort _ _

lemma argsortDesc_nodup (l : List EReal) : (argsortDesc l).Nodup :=
  (argsortDesc_perm l).nodup_iff.mpr (List.nodup_range _)

lemma argsortDesc_lt (l : List EReal) (i : ℕ) (hi : i < (argsortDesc l).length) :
    (argsortDesc l)[i] < l.length := by
  have hm : (argsortDesc l)[i] ∈ List.range l.length :=
    (argsortDesc_perm l).mem_iff.mp (List.getElem_mem _)
  simpa using hm

lemma argsortDesc_surj (l : List EReal) (j : ℕ) (hj : j < l.length) :
    ∃ i, ∃ h : i < (argsortDesc l).length, (argsortDesc l)[i] = j := by
  have hm : j ∈ argsortDesc l := (argsortDesc_perm l).mem_iff.mpr (by simpa using hj)
  exact List.mem_iff_getElem.mp hm

lemma argsortDesc_sorted (l : List EReal) (i j : ℕ) (hij : i ≤ j)
    (hj : j < (argsortDesc l).length) :
    l.getD ((argsortDesc l).get ⟨j, hj⟩) ⊥ ≤ l.getD ((argsortDesc l).get ⟨i, lt_of_le_of_lt hij hj⟩) ⊥ := by
  have ht : IsTotal ℕ (fun a b => l.getD b ⊥ ≤ l.getD a ⊥) := ⟨fun a b => le_total _ _⟩
  have htr : IsTrans ℕ (fun a b => l.getD b ⊥ ≤ l.getD a ⊥) :=
    ⟨fun a b c h1 h2 => le_trans h2 h1⟩
  have hr : IsRefl ℕ (fun a b => l.getD b ⊥ ≤ l.getD a ⊥) := ⟨fun a => le_refl _⟩
  have hs : List.Sorted (fun a b => l.getD b ⊥ ≤ l.getD a ⊥) (argsortDesc l) := by
    unfold argsortDesc
    exact List.sorted_insertionSort _ _
  exact hs.rel_get_of_le (a := ⟨i, lt_of_le_of_lt hij hj⟩) (b := ⟨j, hj⟩) hij

/-! ### Positional counting bridge -/

lemma countP_eq_length_filter_range (P : EReal → Bool) :
    ∀ L : List EReal,
      L.countP P = ((List.range L.length).filter fun i => P (L.getD i ⊥)).length
  | [] => by simp
  | a :: t => by
      rw [List.countP_cons, List.length_cons, List.range_succ_eq_map, List.filter_cons]
      have hcomp : ((List.range t.length).map Nat.succ).filter
          (fun i => P ((a :: t).getD i ⊥)) =
          ((List.range t.length).filter fun i => P (t.getD i ⊥)).map Nat.succ := by
        rw [List.filter_map]
        rfl
      by_cases hPa : P a
      · rw [if_pos (by simpa using hPa), List.getD_cons_zero, if_pos hPa,
          List.length_cons, hcomp, List.length_map, countP_eq_length_filter_range P t]
      · rw [if_neg (by simpa using hPa), List.getD_cons_zero, if_neg hPa, hcomp,
          List.length_map, countP_eq_length_filter_range P t, Nat.add_zero]

/-! ### Lemmas about the three filter rules -/

lemma threshStep_length (l2 : List EReal) (thr fv : EReal) :
    (threshStep l2 thr fv).length = l2.length := by
  simp [threshStep]

lemma threshStep_getD (l2 : List EReal) (thr fv : EReal) (j : ℕ) (hj : j < l2.length) :
    (threshStep l2 thr fv).getD j ⊥ =
      if l2.getD j ⊥ < thr then fv else l2.getD j ⊥ :=
  getD_map l2 _ ⊥ ⊥ j hj

lemma threshStep_bot (l2 : List EReal) (fv : EReal) : threshStep l2 ⊥ fv = l2 := by
  unfold threshStep
  have h : ∀ x : EReal, (if x < ⊥ then fv else x) = x := fun x => if_neg (not_lt_bot)
  simp [h]

lemma topkStep_zero (l : List EReal) (fv : EReal) : topkStep l 0 fv = l := by
  simp [topkStep]

lemma topkStep_length (l : List EReal) (k : ℕ) (fv : EReal) :
    (topkStep l k fv).length = l.length := by
  unfold topkStep
  split
  · simp
  · rfl

lemma topkStep_pos (l : List EReal) (k : ℕ) (fv : EReal) (hk : 0 < min k l.length) :
    topkStep l k fv =
      l.map fun x =>
        if x < (sortDesc l).getD (min k l.length - 1) ⊥ then fv else x := by
  unfold topkStep
  rw [if_pos hk]

lemma nucleusStep_zero_of_nonpos (l1 : List EReal) (p : ℝ) (hp : ¬ 0 < p) (fv : EReal) :
    nucleusStep l1 p fv = l1 := by
  unfold nucleusStep
  rw [if_neg hp]

lemma nucleusStep_length (l1 : List EReal) (p : ℝ) (fv : EReal) :
    (nucleusStep l1 p fv).length = l1.length := by
  unfold nucleusStep
  split
  · simp
  · rfl

lemma nucleusStep_getD (l1 : List EReal) (p : ℝ) (hp : 0 < p) (fv : EReal) (j : ℕ)
    (hj : j < l1.length) :
    (nucleusStep l1 p fv).getD j ⊥ =
      if j ∈ nucleusRemove l1 p then fv else l1.getD j ⊥ := by
  unfold nucleusStep
  rw [if_pos hp, List.getD_eq_getElem _ _ (by simpa using hj), List.getElem_map,
    List.getElem_range]

lemma nucleusFlags_length (l1 : List EReal) (p : ℝ) (h : l1 ≠ []) :
    (nucleusFlags l1 p).length = l1.length := by
  unfold nucleusFlags
  have h0 : 0 < l1.length := List.length_pos.mpr h
  simp only [List.length_cons, List.length_dropLast, List.length_map, cumsum_length,
    softmaxE_length, argsortDesc_length]
  omega

lemma nucleusFlags_zero (l1 : List EReal) (p : ℝ) :
    (nucleusFlags l1 p).getD 0 false = false := rfl

lemma nucleusFlags_succ (l1 : List EReal) (p : ℝ) (t : ℕ) (ht : t + 1 < l1.length) :
    (nucleusFlags l1 p).getD (t + 1) false =
      decide (p <
        (cumsum (softmaxE ((argsortDesc l1).map fun i => l1.getD i ⊥))).getD t 0) := by
  unfold nucleusFlags
  rw [List.getD_cons_succ]
  rw [List.getD_eq_getElem _ _ (by
      simp only [List.length_dropLast, List.length_map, cumsum_length, softmaxE_length,
        argsortDesc_length]
      omega),
    List.getElem_dropLast, List.getElem_map,
    List.getD_eq_getElem _ _ (by
      simp only [cumsum_length, softmaxE_length, List.length_map, argsortDesc_length]
      omega)]

lemma mem_nucleusRemove_iff (l1 : List EReal) (p : ℝ) (j : ℕ) :
    j ∈ nucleusRemove l1 p ↔ ∃ i, ∃ hA : i < (argsortDesc l1).length,
      i < (nucleusFlags l1 p).length ∧
      (argsortDesc l1)[i] = j ∧ (nucleusFlags l1 p).getD i false = true := by
  unfold nucleusRemove
  rw [List.mem_filterMap]
  constructor
  · rintro ⟨⟨a, b⟩, hmem, hf⟩
    have hb : b = true := by
      by_contra hb
      rw [if_neg (by simpa using hb)] at hf
      exact Option.noConfusion hf
    rw [hb, if_pos rfl] at hf
    have haj : a = j := Option.some.inj hf
    obtain ⟨i, hi, hget⟩ := List.mem_iff_getElem.mp hmem
    have hlen := hi
    rw [List.length_zip] at hlen
    have hiA : i < (argsortDesc l1).length := by omega
    have hiF : i < (nucleusFlags l1 p).length := by omega
    rw [List.getElem_zip] at hget
    have h1 : (argsortDesc l1)[i] = a := congrArg Prod.fst hget
    have h2 : (nucleusFlags l1 p)[i] = b := congrArg Prod.snd hget
    refine ⟨i, hiA, hiF, by rw [h1, haj], ?_⟩
    rw [List.getD_eq_getElem _ _ hiF, h2, hb]
  · rintro ⟨i, hA, hF, hj, htrue⟩
    have hzip : i < ((argsortDesc l1).zip (nucleusFlags l1 p)).length := by
      rw [List.length_zip]
      omega
    refine ⟨((argsortDesc l1)[i], (nucleusFlags l1 p).get ⟨i, hF⟩), ?_, ?_⟩
    · exact List.mem_iff_getElem.mpr ⟨i, hzip, List.getElem_zip⟩
    · rw [List.getD_eq_getElem _ _ hF] at htrue
      simp only [List.get_eq_getElem]
      rw [htrue, if_pos rfl, hj]

/-! ### The k-th largest value and counting -/

lemma top_filtering_p0 (logits : List EReal) (k : ℕ) (thr fv : EReal) :
    top_filtering logits k 0 thr fv = threshStep (topkStep logits k fv) thr fv := by
  unfold top_filtering
  rw [nucleusStep_zero_of_nonpos _ _ (lt_irrefl 0) _]

lemma card_filter_range_eq_countP (L : List EReal) (P : EReal → Prop) [DecidablePred P] :
    ((Finset.range L.length).filter fun i => P (L.getD i ⊥)).card
      = L.countP fun x => decide (P x) := by
  rw [countP_eq_length_filter_range]
  rfl

lemma countP_sortDesc_pos (v : List EReal) (P : EReal → Prop) [DecidablePred P] :
    v.countP (fun x => decide (P x)) =
      ((Finset.range v.length).filter fun i => P ((sortDesc v).getD i ⊥)).card := by
  rw [← (sortDesc_perm v).countP_eq, ← card_filter_range_eq_countP, sortDesc_length]

/-- at least `kq` entries are ≥ the `kq`-th largest value. -/
lemma countP_kth_ge (v : List EReal) (kq : ℕ) (hk : 0 < kq) (hkn : kq ≤ v.length) :
    kq ≤ v.countP fun x => decide (¬ x < (sortDesc v).getD (kq - 1) ⊥) := by
  rw [countP_sortDesc_pos]
  have hsub : Finset.range kq ⊆
      (Finset.range v.length).filter fun i => ¬ (sortDesc v).getD i ⊥ <
        (sortDesc v).getD (kq - 1) ⊥ := by
    intro i hi
    rw [Finset.mem_range] at hi
    rw [Finset.mem_filter, Finset.mem_range]
    have hin : i < v.length := lt_of_lt_of_le hi hkn
    refine ⟨hin, ?_⟩
    have hb1 : kq - 1 < (sortDesc v).length := by rw [sortDesc_length]; omega
    have hb2 : i < (sortDesc v).length := by rw [sortDesc_length]; omega
    rw [List.getD_eq_getElem _ _ hb2, List.getD_eq_getElem _ _ hb1]
    exact not_lt_of_ge (sortDesc_sorted v i (kq - 1) (by omega) hb1)
  calc kq = (Finset.range kq).card := (Finset.card_range kq).symm
    _ ≤ _ := Finset.card_le_card hsub

/-- if strictly more than `kq - 1` entries exceed `y`, then `y` is strictly
below the `kq`-th largest value. -/
lemma lt_kth_of_countP (v : List EReal) (kq : ℕ) (hk : 0 < kq) (_hkn : kq ≤ v.length)
    (y : EReal) (hc : kq ≤ v.countP fun x => decide (y < x)) :
    y < (sortDesc v).getD (kq - 1) ⊥ := by
  by_contra hy
  rw [not_lt] at hy
  rw [countP_sortDesc_pos] at hc
  have hsub : ((Finset.range v.length).filter fun i => y < (sortDesc v).getD i ⊥) ⊆
      Finset.range (kq - 1) := by
    intro i hi
    rw [Finset.mem_filter, Finset.mem_range] at hi
    rw [Finset.mem_range]
    by_contra hik
    push_neg at hik
    have hb2 : i < (sortDesc v).length := by rw [sortDesc_length]; exact hi.1
    have hb1 : kq - 1 < (sortDesc v).length := by rw [sortDesc_length]; omega
    have hle : (sortDesc v)[i] ≤ (sortDesc v)[kq - 1] :=
      sortDesc_sorted v (kq - 1) i hik hb2
    have := hi.2
    rw [List.getD_eq_getElem _ _ hb2] at this
    have hylt : y < (sortDesc v)[kq - 1] := lt_of_lt_of_le this hle
    rw [List.getD_eq_getElem _ _ hb1] at hy
    exact absurd hylt (not_lt_of_ge hy)
  have := Finset.card_le_card hsub
  rw [Finset.card_range] at this
  omega

/-- with no tie just below the boundary, exactly `kq` entries are ≥ the
`kq`-th largest value. -/
lemma countP_kth_eq (v : List EReal) (kq : ℕ) (hk : 0 < kq) (hkn : kq ≤ v.length)
    (hnt : kq < v.length →
      (sortDesc v).getD kq ⊥ ≠ (sortDesc v).getD (kq - 1) ⊥) :
    (v.countP fun x => decide (¬ x < (sortDesc v).getD (kq - 1) ⊥)) = kq := by
  have hge := countP_kth_ge v kq hk hkn
  rw [countP_sortDesc_pos] at hge ⊢
  have hsub : ((Finset.range v.length).filter fun i =>
      ¬ (sortDesc v).getD i ⊥ < (sortDesc v).getD (kq - 1) ⊥) ⊆ Finset.range kq := by
    intro i hi
    rw [Finset.mem_filter, Finset.mem_range] at hi
    rw [Finset.mem_range]
    by_contra hik
    push_neg at hik
    have hin : kq < v.length := lt_of_le_of_lt hik hi.1
    have hb2 : i < (sortDesc v).length := by rw [sortDesc_length]; exact hi.1
    have hbq : kq < (sortDesc v).length := by rw [sortDesc_length]; exact hin
    have hb1 : kq - 1 < (sortDesc v).length := by rw [sortDesc_length]; omega
    have h1 : (sortDesc v)[i] ≤ (sortDesc v)[kq] :=
      sortDesc_sorted v kq i hik hb2
    have h2 : (sortDesc v)[kq] ≤ (sortDesc v)[kq - 1] :=
      sortDesc_sorted v (kq - 1) kq (by omega) hbq
    have h3 := hnt hin
    rw [List.getD_eq_getElem _ _ hbq, List.getD_eq_getElem _ _ hb1] at h3
    have h4 : (sortDesc v)[kq] < (sortDesc v)[kq - 1] := lt_of_le_of_ne h2 h3
    apply hi.2
    rw [List.getD_eq_getElem _ _ hb2, List.getD_eq_getElem _ _ hb1]
    exact lt_of_le_of_lt h1 h4
  have hle := Finset.card_le_card hsub
  rw [Finset.card_range] at hle
  omega

/-! ### Idempotence of top-k plus threshold filtering -/

lemma topkStep_of_min_zero (l : List EReal) (k : ℕ) (fv : EReal)
    (h : min k l.length = 0) : topkStep l k fv = l := by
  unfold topkStep
  rw [h]
  simp

lemma threshStep_mem (l2 : List EReal) (thr fv x : EReal)
    (hx : x ∈ threshStep l2 thr fv) : ∃ y ∈ l2, (if y < thr then fv else y) = x := by
  unfold threshStep at hx
  exact List.mem_map.mp hx

lemma countP_lt_le (w v : List EReal) (hlen : w.length = v.length) (x : EReal)
    (hpt : ∀ i, i < v.length → x < w.getD i ⊥ → x < v.getD i ⊥) :
    (w.countP fun z => decide (x < z)) ≤ v.countP fun z => decide (x < z) := by
  have hw := card_filter_range_eq_countP w fun z => x < z
  have hv := card_filter_range_eq_countP v fun z => x < z
  rw [← hw, ← hv, hlen]
  apply Finset.card_le_card
  intro i hi
  rw [Finset.mem_filter] at hi ⊢
  exact ⟨hi.1, hpt i (Finset.mem_range.mp hi.1) hi.2⟩

/-- pointwise, the top-k-then-threshold filter either keeps an entry or
replaces it by the sentinel. -/
lemma filtered_pointwise (v : List EReal) (k : ℕ) (thr : EReal) (i : ℕ)
    (hi : i < v.length) :
    (threshStep (topkStep v k ⊥) thr ⊥).getD i ⊥ = ⊥ ∨
      (threshStep (topkStep v k ⊥) thr ⊥).getD i ⊥ = v.getD i ⊥ := by
  have htl : (topkStep v k ⊥).length = v.length := topkStep_length v k ⊥
  rw [threshStep_getD _ thr ⊥ i (by rw [htl]; exact hi)]
  by_cases hc : (topkStep v k ⊥).getD i ⊥ < thr
  · left
    rw [if_pos hc]
  · rw [if_neg hc]
    by_cases hk : 0 < min k v.length
    · rw [topkStep_pos v k ⊥ hk, getD_map v _ ⊥ ⊥ i hi]
      by_cases hd : v.getD i ⊥ < (sortDesc v).getD (min k v.length - 1) ⊥
      · left
        rw [if_pos hd]
      · right
        rw [if_neg hd]
    · right
      rw [topkStep_of_min_zero v k ⊥ (Nat.eq_zero_of_not_pos hk)]

/-- a non-sentinel entry of the filtered vector is an original entry that
passed both the top-k rule and the threshold rule. -/
lemma filtered_mem (v : List EReal) (k : ℕ) (thr : EReal) (hk : 0 < min k v.length)
    (x : EReal) (hx : x ∈ threshStep (topkStep v k ⊥) thr ⊥) (hxb : x ≠ ⊥) :
    x ∈ v ∧ ¬ x < thr ∧ ¬ x < (sortDesc v).getD (min k v.length - 1) ⊥ := by
  obtain ⟨y, hy, hyx⟩ := threshStep_mem _ thr ⊥ x hx
  by_cases hyt : y < thr
  · rw [if_pos hyt] at hyx
    exact absurd hyx.symm hxb
  · rw [if_neg hyt] at hyx
    subst hyx
    rw [topkStep_pos v k ⊥ hk] at hy
    obtain ⟨z, hz, hzx⟩ := List.mem_map.mp hy
    by_cases hzt : z < (sortDesc v).getD (min k v.length - 1) ⊥
    · rw [if_pos hzt] at hzx
      exact absurd hzx.symm hxb
    · rw [if_neg hzt] at hzx
      subst hzx
      exact ⟨hz, hyt, hzt⟩

/-- with a positive clamped k, no surviving entry lies strictly below the
k-th largest value of the filtered vector: second-pass top-k removes
nothing new. -/
lemma no_entry_below_second_kth (v w : List EReal) (k : ℕ) (hk : 0 < min k v.length)
    (hwlen : w.length = v.length)
    (hpt : ∀ i, i < v.length → w.getD i ⊥ = ⊥ ∨ w.getD i ⊥ = v.getD i ⊥)
    (x : EReal) (_hxb : x ≠ ⊥)
    (hxv : ¬ x < (sortDesc v).getD (min k v.length - 1) ⊥)
    (_hxmem : x ∈ v) :
    ¬ x < (sortDesc w).getD (min k v.length - 1) ⊥ := by
  by_contra hx2
  have hkn_w : min k v.length ≤ w.length := by
    rw [hwlen]
    exact min_le_right _ _
  have h0 : min k w.length = min k v.length := by rw [hwlen]
  have h1 := countP_kth_ge w (min k v.length) hk hkn_w
  have h2 : (w.countP fun z => decide (¬ z < (sortDesc w).getD (min k v.length - 1) ⊥))
      ≤ w.countP fun z => decide (x < z) := by
    apply List.countP_mono_left
    intro z hz hzd
    exact decide_eq_true (lt_of_lt_of_le hx2 (not_lt.mp (of_decide_eq_true hzd)))
  have h3 : (w.countP fun z => decide (x < z)) ≤ v.countP fun z => decide (x < z) := by
    apply countP_lt_le w v hwlen
    intro i hi hlt
    rcases hpt i hi with hbot | heq
    · rw [hbot] at hlt
      exact absurd hlt not_lt_bot
    · rw [heq] at hlt
      exact hlt
  have h4 : x < (sortDesc v).getD (min k v.length - 1) ⊥ :=
    lt_kth_of_countP v (min k v.length) hk (min_le_right _ _) x
      (le_trans (le_trans h1 h2) h3)
  exact hxv h4

lemma topkStep_second (v : List EReal) (k : ℕ) (thr : EReal) :
    topkStep (threshStep (topkStep v k ⊥) thr ⊥) k ⊥ =
      threshStep (topkStep v k ⊥) thr ⊥ := by
  have hwlen : (threshStep (topkStep v k ⊥) thr ⊥).length = v.length := by
    rw [threshStep_length, topkStep_length]
  by_cases hk : 0 < min k v.length
  · have hk2 : 0 < min k (threshStep (topkStep v k ⊥) thr ⊥).length := by
      rw [hwlen]
      exact hk
    rw [topkStep_pos _ k ⊥ hk2]
    conv_rhs => rw [← List.map_id (threshStep (topkStep v k ⊥) thr ⊥)]
    apply List.map_congr_left
    intro x hx
    rw [hwlen]
    by_cases hxb : x = ⊥
    · subst hxb
      show (if (⊥ : EReal) < _ then (⊥ : EReal) else ⊥) = id ⊥
      rw [ite_self]
      rfl
    · have hch := filtered_mem v k thr hk x hx hxb
      have hnlt := no_entry_below_second_kth v (threshStep (topkStep v k ⊥) thr ⊥) k hk
        hwlen (filtered_pointwise v k thr) x hxb hch.2.2 hch.1
      rw [if_neg hnlt]
      rfl
  · exact topkStep_of_min_zero _ k ⊥ (by rw [hwlen]; exact Nat.eq_zero_of_not_pos hk)

lemma threshStep_second (v : List EReal) (k : ℕ) (thr : EReal) :
    threshStep (threshStep (topkStep v k ⊥) thr ⊥) thr ⊥ =
      threshStep (topkStep v k ⊥) thr ⊥ := by
  unfold threshStep
  rw [List.map_map]
  apply List.map_congr_left
  intro y hy
  show (if (if y < thr then (⊥ : EReal) else y) < thr then (⊥ : EReal)
    else if y < thr then (⊥ : EReal) else y) = if y < thr then (⊥ : EReal) else y
  by_cases hyt : y < thr
  · rw [if_pos hyt, ite_self]
  · rw [if_neg hyt, if_neg hyt]

lemma topk_thresh_idem (v : List EReal) (k : ℕ) (thr : EReal) :
    threshStep (topkStep (threshStep (topkStep v k ⊥) thr ⊥) k ⊥) thr ⊥ =
      threshStep (topkStep v k ⊥) thr ⊥ := by
  rw [topkStep_second, threshStep_second]

/-! ### Analysis of the nucleus (top-p) step on a real score vector -/

lemma sorted_map_perm (l1 : List EReal) :
    ((argsortDesc l1).map fun i => l1.getD i ⊥).Perm l1 := by
  have h := (argsortDesc_perm l1).map fun i => l1.getD i ⊥
  rwa [range_map_getD] at h

lemma nucleus_analysis (l : List ℝ) (hl : l ≠ []) (p : ℝ) (hp : 0 < p) :
    (p ≤ 1 → p ≤ survivingMass l (nucleusStep (l.map Real.toEReal) p ⊥)) ∧
    (∀ j, j < l.length →
      (∀ i, i < l.length → i ≠ j → l.getD i 0 < l.getD j 0) →
      (nucleusStep (l.map Real.toEReal) p ⊥).getD j ⊥ ≠ ⊥) ∧
    (∃ j, (nucleusStep (l.map Real.toEReal) p ⊥).getD j ⊥ ≠ ⊥) := by
  have hn : 0 < l.length := List.length_pos.mpr hl
  have hVlen : (l.map Real.toEReal).length = l.length := by simp
  have hVne : l.map Real.toEReal ≠ [] := by
    intro h
    exact hl (List.map_eq_nil_iff.mp h)
  have hAlen : (argsortDesc (l.map Real.toEReal)).length = l.length := by
    rw [argsortDesc_length, hVlen]
  have hFlen : (nucleusFlags (l.map Real.toEReal) p).length = l.length := by
    rw [nucleusFlags_length _ p hVne, hVlen]
  have hslen : ((argsortDesc (l.map Real.toEReal)).map
      fun i => (l.map Real.toEReal).getD i ⊥).length = l.length := by
    rw [List.length_map, hAlen]
  have hprlen : (softmaxE ((argsortDesc (l.map Real.toEReal)).map
      fun i => (l.map Real.toEReal).getD i ⊥)).length = l.length := by
    rw [softmaxE_length, hslen]
  have hcmlen : (cumsum (softmaxE ((argsortDesc (l.map Real.toEReal)).map
      fun i => (l.map Real.toEReal).getD i ⊥))).length = l.length := by
    rw [cumsum_length, hprlen]
  have hsortperm := sorted_map_perm (l.map Real.toEReal)
  -- positivity of the softmax denominators
  have hmem0 : (l.map Real.toEReal).getD 0 ⊥ ∈ l.map Real.toEReal := by
    rw [List.getD_eq_getElem _ _ (by omega)]
    exact List.getElem_mem (by omega)
  have hne0 : (l.map Real.toEReal).getD 0 ⊥ ≠ ⊥ := by
    rw [coe_getD l 0 hn]
    exact EReal.coe_ne_bot _
  have hSpos : 0 < ((l.map Real.toEReal).map eexp).sum :=
    eexp_sum_pos _ _ hmem0 hne0
  have hSeq : (((argsortDesc (l.map Real.toEReal)).map
      fun i => (l.map Real.toEReal).getD i ⊥).map eexp).sum
      = ((l.map Real.toEReal).map eexp).sum :=
    (hsortperm.map eexp).sum_eq
  have hSpos' : 0 < (((argsortDesc (l.map Real.toEReal)).map
      fun i => (l.map Real.toEReal).getD i ⊥).map eexp).sum := by
    rw [hSeq]
    exact hSpos
  -- pointwise values of the sorted probabilities and the raw softmax
  have hsortgetD : ∀ i, i < l.length →
      ((argsortDesc (l.map Real.toEReal)).map fun i => (l.map Real.toEReal).getD i ⊥).getD i ⊥
        = (l.map Real.toEReal).getD ((argsortDesc (l.map Real.toEReal)).getD i 0) ⊥ :=
    fun i hi => getD_map _ _ 0 ⊥ i (by omega)
  have hpr : ∀ i, i < l.length →
      (softmaxE ((argsortDesc (l.map Real.toEReal)).map
        fun i => (l.map Real.toEReal).getD i ⊥)).getD i 0
      = eexp ((l.map Real.toEReal).getD ((argsortDesc (l.map Real.toEReal)).getD i 0) ⊥)
          / ((l.map Real.toEReal).map eexp).sum := by
    intro i hi
    rw [softmaxE_getD _ i (by omega), hsortgetD i hi, hSeq]
  have hsmx : ∀ j, j < l.length →
      (softmaxR l).getD j 0
        = eexp ((l.map Real.toEReal).getD j ⊥) / ((l.map Real.toEReal).map eexp).sum := by
    intro j hj
    unfold softmaxR
    rw [softmaxE_getD _ j (by omega)]
  -- total probability one
  have hprsum : ∑ t ∈ Finset.range l.length,
      (softmaxE ((argsortDesc (l.map Real.toEReal)).map
        fun i => (l.map Real.toEReal).getD i ⊥)).getD t 0 = 1 := by
    have h1 := sum_take_eq (softmaxE ((argsortDesc (l.map Real.toEReal)).map
      fun i => (l.map Real.toEReal).getD i ⊥)) l.length (by omega)
    rw [← h1, ← hprlen, List.take_length]
    exact softmaxE_sum _ hSpos'
  -- cumulative sums
  have hcm : ∀ i, i < l.length →
      (cumsum (softmaxE ((argsortDesc (l.map Real.toEReal)).map
        fun i => (l.map Real.toEReal).getD i ⊥))).getD i 0
      = ∑ t ∈ Finset.range (i + 1),
          (softmaxE ((argsortDesc (l.map Real.toEReal)).map
            fun i => (l.map Real.toEReal).getD i ⊥)).getD t 0 :=
    fun i hi => cumsum_getD _ i (by omega)
  have hcm_mono : ∀ i i', i ≤ i' → i' < l.length →
      (cumsum (softmaxE ((argsortDesc (l.map Real.toEReal)).map
        fun i => (l.map Real.toEReal).getD i ⊥))).getD i 0
      ≤ (cumsum (softmaxE ((argsortDesc (l.map Real.toEReal)).map
        fun i => (l.map Real.toEReal).getD i ⊥))).getD i' 0 := by
    intro i i' hii hi'
    rw [hcm i (by omega), hcm i' hi']
    apply Finset.sum_le_sum_of_subset_of_nonneg
    · exact Finset.range_subset.mpr (by omega)
    · intro t _ _
      exact softmaxE_nonneg _ t
  have hcm_last : (cumsum (softmaxE ((argsortDesc (l.map Real.toEReal)).map
      fun i => (l.map Real.toEReal).getD i ⊥))).getD (l.length - 1) 0 = 1 := by
    rw [hcm (l.length - 1) (by omega)]
    have : l.length - 1 + 1 = l.length := by omega
    rw [this, hprsum]
  -- flag values
  have hflag : ∀ i, 0 < i → i < l.length →
      (nucleusFlags (l.map Real.toEReal) p).getD i false
        = decide (p < (cumsum (softmaxE ((argsortDesc (l.map Real.toEReal)).map
            fun i => (l.map Real.toEReal).getD i ⊥))).getD (i - 1) 0) := by
    intro i hi0 hi
    obtain ⟨t, rfl⟩ := Nat.exists_eq_add_of_lt hi0
    rw [Nat.zero_add] at *
    have := nucleusFlags_succ (l.map Real.toEReal) p t (by omega)
    rw [this]
    congr 1
  -- abbreviations
  set V := l.map Real.toEReal with hV
  set A := argsortDesc V with hA0
  set srt := A.map (fun i => V.getD i ⊥) with hsrt0
  set pr := softmaxE srt with hpr0
  set cm := cumsum pr with hcm0
  set F := nucleusFlags V p with hF0
  set out := nucleusStep V p ⊥ with hout0
  -- the kept sorted positions form an initial segment of positions
  have hK0 : (0 : ℕ) ∈ (Finset.range l.length).filter (fun i => F.getD i false = false) := by
    rw [Finset.mem_filter, Finset.mem_range]
    refine ⟨hn, ?_⟩
    rw [hF0]
    exact nucleusFlags_zero V p
  have hKdc : ∀ i i', i' ≤ i →
      i ∈ (Finset.range l.length).filter (fun i => F.getD i false = false) →
      i' ∈ (Finset.range l.length).filter (fun i => F.getD i false = false) := by
    intro i i' hii hi
    rw [Finset.mem_filter, Finset.mem_range] at hi
    obtain ⟨hilt, hifalse⟩ := hi
    rw [Finset.mem_filter, Finset.mem_range]
    have hin : i' < l.length := by omega
    refine ⟨hin, ?_⟩
    rcases Nat.eq_zero_or_pos i' with h0 | hpos
    · subst h0
      rw [hF0]
      exact nucleusFlags_zero V p
    · have hipos : 0 < i := by omega
      rw [hflag i hipos hilt] at hifalse
      rw [hflag i' hpos hin]
      rw [decide_eq_false_iff_not] at hifalse
      rw [decide_eq_false_iff_not]
      intro hlt
      exact hifalse (lt_of_lt_of_le hlt (hcm_mono (i' - 1) (i - 1) (by omega) (by omega)))
  have hKne : ((Finset.range l.length).filter (fun i => F.getD i false = false)).Nonempty :=
    ⟨0, hK0⟩
  set M := ((Finset.range l.length).filter (fun i => F.getD i false = false)).max' hKne
    with hM0
  have hMmem := Finset.max'_mem _ hKne
  have hMlt : M < l.length := by
    have hm := hMmem
    rw [Finset.mem_filter, Finset.mem_range] at hm
    exact hm.1
  have hKeq : (Finset.range l.length).filter (fun i => F.getD i false = false)
      = Finset.range (M + 1) := by
    apply Finset.ext
    intro i
    rw [Finset.mem_range]
    constructor
    · intro hi
      have := Finset.le_max' _ i hi
      omega
    · intro hi
      exact hKdc M i (by omega) hMmem
  -- survivor characterisation
  have hout_getD : ∀ j, j < l.length →
      out.getD j ⊥ = if j ∈ nucleusRemove V p then (⊥ : EReal) else V.getD j ⊥ := by
    intro j hj
    rw [hout0]
    exact nucleusStep_getD V p hp ⊥ j (by omega)
  have hsurv_iff : ∀ j, j < l.length → (out.getD j ⊥ ≠ ⊥ ↔
      ∃ i ∈ (Finset.range l.length).filter (fun i => F.getD i false = false),
        A.getD i 0 = j) := by
    intro j hj
    rw [hout_getD j hj]
    constructor
    · intro hne
      have hjR : j ∉ nucleusRemove V p := by
        intro hmem
        rw [if_pos hmem] at hne
        exact hne rfl
      obtain ⟨i0, hi0, hgeti0⟩ := argsortDesc_surj V j (by omega)
      have hi0A : i0 < A.length := hi0
      have hi0n : i0 < l.length := by omega
      refine ⟨i0, ?_, ?_⟩
      · rw [Finset.mem_filter, Finset.mem_range]
        refine ⟨hi0n, ?_⟩
        rcases Bool.eq_false_or_eq_true (F.getD i0 false) with hb | hb
        · exfalso
          apply hjR
          rw [mem_nucleusRemove_iff]
          have hi0F : i0 < F.length := by omega
          exact ⟨i0, hi0, hi0F, hgeti0, hb⟩
        · exact hb
      · rw [List.getD_eq_getElem _ _ hi0A]
        exact hgeti0
    · rintro ⟨i, hiK, hij⟩
      rw [Finset.mem_filter, Finset.mem_range] at hiK
      obtain ⟨hilt, hifalse⟩ := hiK
      have hjR : j ∉ nucleusRemove V p := by
        intro hmem
        rw [mem_nucleusRemove_iff] at hmem
        obtain ⟨i2, hi2A, hi2F, hi2get, hi2true⟩ := hmem
        have hiA : i < A.length := by omega
        have heqAi : (argsortDesc V)[i] = j := by
          rw [← hij, List.getD_eq_getElem _ _ hiA]
        have hi2i : i2 = i := by
          apply (argsortDesc_nodup V).getElem_inj_iff.mp
          rw [hi2get, heqAi]
        rw [hi2i] at hi2true
        have hi2t : F.getD i false = true := hi2true
        rw [hifalse] at hi2t
        exact Bool.false_ne_true hi2t
      rw [if_neg hjR, hV, coe_getD l j hj]
      exact EReal.coe_ne_bot _
  have hout_len : out.length = l.length := by
    rw [hout0, nucleusStep_length]
    omega
  have him : survivors out = ((Finset.range l.length).filter
      (fun i => F.getD i false = false)).image (fun i => A.getD i 0) := by
    unfold survivors
    rw [hout_len]
    apply Finset.ext
    intro j
    rw [Finset.mem_filter, Finset.mem_range, Finset.mem_image]
    constructor
    · rintro ⟨hjn, hjne⟩
      exact (hsurv_iff j hjn).mp hjne
    · rintro ⟨i, hiK, hij⟩
      have hiK' := hiK
      rw [Finset.mem_filter, Finset.mem_range] at hiK'
      have hiA : i < A.length := by omega
      have hjn : j < l.length := by
        rw [← hij, List.getD_eq_getElem _ _ hiA]
        have h1 : A[i] < V.length := argsortDesc_lt V i hiA
        omega
      exact ⟨hjn, (hsurv_iff j hjn).mpr ⟨i, hiK, hij⟩⟩
  have hinj : ∀ x ∈ (Finset.range l.length).filter (fun i => F.getD i false = false),
      ∀ y ∈ (Finset.range l.length).filter (fun i => F.getD i false = false),
      A.getD x 0 = A.getD y 0 → x = y := by
    intro x hx y hy hxy
    rw [Finset.mem_filter, Finset.mem_range] at hx hy
    have hxA : x < A.length := by omega
    have hyA : y < A.length := by omega
    rw [List.getD_eq_getElem _ _ hxA, List.getD_eq_getElem _ _ hyA] at hxy
    exact (argsortDesc_nodup V).getElem_inj_iff.mp hxy
  -- the surviving mass equals the cumulative sum at the last kept position
  have hmass : survivingMass l out = cm.getD M 0 := by
    unfold survivingMass
    rw [him, Finset.sum_image hinj, hKeq]
    have hptwise : ∀ i ∈ Finset.range (M + 1),
        (softmaxR l).getD (A.getD i 0) 0 = pr.getD i 0 := by
      intro i hi
      rw [Finset.mem_range] at hi
      have hib : i < l.length := by omega
      have hiA : i < A.length := by omega
      have hjn : A.getD i 0 < l.length := by
        rw [List.getD_eq_getElem _ _ hiA]
        have h1 : A[i] < V.length := argsortDesc_lt V i hiA
        omega
      rw [hsmx _ hjn, hpr i hib]
    rw [Finset.sum_congr rfl hptwise, hcm M hMlt]
  have hbound : p ≤ 1 → p ≤ cm.getD M 0 := by
    intro hp1
    rcases Nat.lt_or_ge (M + 1) l.length with hM1 | hM1
    · have hM1notin : (M + 1) ∉ (Finset.range l.length).filter
          (fun i => F.getD i false = false) := by
        intro hmem
        have := Finset.le_max' _ (M + 1) hmem
        omega
      have hflagM : F.getD (M + 1) false = true := by
        rcases Bool.eq_false_or_eq_true (F.getD (M + 1) false) with hb | hb
        · exact hb
        · exact absurd (by
            rw [Finset.mem_filter, Finset.mem_range]
            exact ⟨hM1, hb⟩) hM1notin
      rw [hflag (M + 1) (by omega) hM1] at hflagM
      rw [decide_eq_true_eq] at hflagM
      have hsimp : M + 1 - 1 = M := by omega
      rw [hsimp] at hflagM
      exact le_of_lt hflagM
    · have hMeq : M = l.length - 1 := by omega
      rw [hMeq, hcm_last]
      exact hp1
  refine ⟨?_, ?_, ?_⟩
  · intro hp1
    rw [hmass]
    exact hbound hp1
  · intro j hj hmax
    have h0A : 0 < A.length := by omega
    have hav0 : A.getD 0 0 < l.length := by
      rw [List.getD_eq_getElem _ _ h0A]
      have h1 : A[0] < V.length := argsortDesc_lt V 0 h0A
      omega
    have hj0 : A.getD 0 0 = j := by
      by_contra hne
      have hlt := hmax (A.getD 0 0) hav0 hne
      have hltE : V.getD (A.getD 0 0) ⊥ < V.getD j ⊥ := by
        rw [hV, coe_getD l _ hav0, coe_getD l j hj]
        exact EReal.coe_lt_coe_iff.mpr hlt
      obtain ⟨i0, hi0, hgeti0⟩ := argsortDesc_surj V j (by omega)
      have hs := argsortDesc_sorted V 0 i0 (Nat.zero_le i0) hi0
      simp only [List.get_eq_getElem] at hs
      rw [hgeti0] at hs
      rw [List.getD_eq_getElem _ _ h0A] at hltE
      exact absurd hltE (not_lt_of_ge hs)
    rw [← hj0]
    exact (hsurv_iff _ (by rw [hj0]; exact hj)).mpr ⟨0, hK0, rfl⟩
  · refine ⟨A.getD 0 0, ?_⟩
    have h0A : 0 < A.length := by omega
    have hav0 : A.getD 0 0 < l.length := by
      rw [List.getD_eq_getElem _ _ h0A]
      have h1 : A[0] < V.length := argsortDesc_lt V 0 h0A
      omega
    exact (hsurv_iff _ hav0).mpr ⟨0, hK0, rfl⟩

/-! ### Claim C1 -/

/-- C1: with `top_k = 0`, `top_p = p > 0` and the threshold at its default,
the softmax-probability mass (computed over the input scores) of the
surviving entries of `top_filtering` is at least `p` whenever `p < 1`; the
single highest-scoring entry always survives regardless of `p`; and at
least one entry survives. -/
theorem C1_nucleus_mass (l : List ℝ) (p : ℝ) (hl : l ≠ []) (hp : 0 < p) :
    (p < 1 → p ≤ survivingMass l (top_filtering (l.map Real.toEReal) 0 p ⊥ ⊥)) ∧
    (∀ j, j < l.length →
      (∀ i, i < l.length → i ≠ j → l.getD i 0 < l.getD j 0) →
      (top_filtering (l.map Real.toEReal) 0 p ⊥ ⊥).getD j ⊥ ≠ ⊥) ∧
    (∃ j, (top_filtering (l.map Real.toEReal) 0 p ⊥ ⊥).getD j ⊥ ≠ ⊥) := by
  have hred : top_filtering (l.map Real.toEReal) 0 p ⊥ ⊥ =
      nucleusStep (l.map Real.toEReal) p ⊥ := by
    unfold top_filtering
    rw [topkStep_zero, threshStep_bot]
  rw [hred]
  obtain ⟨h1, h2, h3⟩ := nucleus_analysis l hl p hp
  exact ⟨fun hp1 => h1 (le_of_lt hp1), h2, h3⟩

/-- Witness for C1 at the concrete input `l = [2, 1]`, `p = 1/2`. -/
theorem C1_nucleus_mass_witness :
    ∃ j, (top_filtering ([(2 : ℝ), 1].map Real.toEReal) 0 (1/2) ⊥ ⊥).getD j ⊥ ≠ ⊥ :=
  (C1_nucleus_mass [(2 : ℝ), 1] (1/2) (by simp) (by norm_num)).2.2

/-! ### Claim C2 -/

/-- C2: for every real score vector and every `top_k = k > 0` (clamped to
the vocabulary size), with `top_p = 0` and the threshold at its default,
`top_filtering` sets to the sentinel exactly the entries strictly below the
k-th largest score; hence at least `min k n` entries survive, with equality
unless there is a tie at the k-th value. -/
theorem C2_topk_survivors (l : List ℝ) (k : ℕ) (hk : 0 < k) :
    (∀ j, (hj : j < l.length) →
      (top_filtering (l.map Real.toEReal) k 0 ⊥ ⊥).getD j ⊥ =
        if ((l.getD j 0 : ℝ) : EReal) <
            (sortDesc (l.map Real.toEReal)).getD (min k l.length - 1) ⊥ then (⊥ : EReal)
        else ((l.getD j 0 : ℝ) : EReal)) ∧
    min k l.length ≤ (survivors (top_filtering (l.map Real.toEReal) k 0 ⊥ ⊥)).card ∧
    ((min k l.length < l.length →
        (sortDesc (l.map Real.toEReal)).getD (min k l.length) ⊥ ≠
          (sortDesc (l.map Real.toEReal)).getD (min k l.length - 1) ⊥) →
      (survivors (top_filtering (l.map Real.toEReal) k 0 ⊥ ⊥)).card = min k l.length) := by
  have hlen : (l.map Real.toEReal).length = l.length := by simp
  by_cases hn : l.length = 0
  · have hl : l = [] := List.length_eq_zero.mp hn
    subst hl
    have hout : top_filtering ([] : List EReal) k 0 ⊥ ⊥ = [] := by
      rw [top_filtering_p0, threshStep_bot]
      unfold topkStep
      simp
    refine ⟨fun j hj => absurd hj (by simp), ?_, fun _ => ?_⟩
    · simp [survivors, hout]
    · simp [survivors, hout]
  · have hn' : 0 < l.length := Nat.pos_of_ne_zero hn
    have hkq_pos : 0 < min k l.length := lt_min hk hn'
    have hkq_le : min k l.length ≤ l.length := min_le_right _ _
    have hout : top_filtering (l.map Real.toEReal) k 0 ⊥ ⊥ =
        (l.map Real.toEReal).map fun x =>
          if x < (sortDesc (l.map Real.toEReal)).getD (min k l.length - 1) ⊥ then (⊥ : EReal)
          else x := by
      rw [top_filtering_p0, threshStep_bot,
        topkStep_pos (l.map Real.toEReal) k ⊥ (by rw [hlen]; exact hkq_pos), hlen]
    have hout_len : (top_filtering (l.map Real.toEReal) k 0 ⊥ ⊥).length = l.length := by
      rw [hout]
      simp
    have hgetD : ∀ j, (hj : j < l.length) →
        (top_filtering (l.map Real.toEReal) k 0 ⊥ ⊥).getD j ⊥ =
          if ((l.getD j 0 : ℝ) : EReal) <
              (sortDesc (l.map Real.toEReal)).getD (min k l.length - 1) ⊥ then (⊥ : EReal)
          else ((l.getD j 0 : ℝ) : EReal) := by
      intro j hj
      rw [hout, getD_map (l.map Real.toEReal) _ ⊥ ⊥ j (by rw [hlen]; exact hj),
        coe_getD l j hj]
    have hsurv : survivors (top_filtering (l.map Real.toEReal) k 0 ⊥ ⊥) =
        (Finset.range l.length).filter fun j =>
          ¬ (l.map Real.toEReal).getD j ⊥ <
            (sortDesc (l.map Real.toEReal)).getD (min k l.length - 1) ⊥ := by
      unfold survivors
      rw [hout_len]
      apply Finset.filter_congr
      intro j hj
      rw [Finset.mem_range] at hj
      rw [hgetD j hj, coe_getD l j hj]
      by_cases hc : ((l.getD j 0 : ℝ) : EReal) <
          (sortDesc (l.map Real.toEReal)).getD (min k l.length - 1) ⊥
      · simp [hc]
      · simp [hc, EReal.coe_ne_bot]
    have hcard : (survivors (top_filtering (l.map Real.toEReal) k 0 ⊥ ⊥)).card
        = (l.map Real.toEReal).countP fun x =>
            decide (¬ x < (sortDesc (l.map Real.toEReal)).getD (min k l.length - 1) ⊥) := by
      have hb := card_filter_range_eq_countP (l.map Real.toEReal)
        (fun x => ¬ x < (sortDesc (l.map Real.toEReal)).getD (min k l.length - 1) ⊥)
      rw [hlen] at hb
      rw [hsurv, hb]
    refine ⟨hgetD, ?_, fun hnt => ?_⟩
    · rw [hcard]
      exact countP_kth_ge (l.map Real.toEReal) (min k l.length) hkq_pos (by omega)
    · rw [hcard]
      exact countP_kth_eq (l.map Real.toEReal) (min k l.length) hkq_pos (by omega)
        (by rw [hlen]; exact hnt)

/-! ### Claim C3 -/

/-- C3 (amended): `top_filtering` applied twice with identical parameters
changes nothing whenever `top_p = 0` (for every real score vector, every
`top_k` and every `threshold`).  With `top_p > 0` a second application can
remove further entries, because the nucleus step recomputes the softmax
over the already-filtered vector; see the counterexample. -/
theorem C3_idempotent_p0 (l : List ℝ) (k : ℕ) (thr : EReal) :
    top_filtering (top_filtering (l.map Real.toEReal) k 0 thr ⊥) k 0 thr ⊥ =
      top_filtering (l.map Real.toEReal) k 0 thr ⊥ := by
  simp only [top_filtering_p0]
  exact topk_thresh_idem (l.map Real.toEReal) k thr

/-! Concrete evaluation of the nucleus filter at the score vector
`[log 2, 0, 0]` with `top_p = 3/5` (softmax `[1/2, 1/4, 1/4]`), and at its
own output `[log 2, 0, ⊥]` (renormalized softmax `[2/3, 1/3, 0]`), showing
the second application removes one more entry. -/

lemma cx_argsort1 :
    argsortDesc [((Real.log 2 : ℝ) : EReal), ((0 : ℝ) : EReal), ((0 : ℝ) : EReal)] =
      [0, 1, 2] := by
  have hlog : (0 : ℝ) ≤ Real.log 2 := Real.log_nonneg (by norm_num)
  unfold argsortDesc
  show (List.range 3).insertionSort _ = [0, 1, 2]
  simp only [List.insertionSort, List.orderedInsert]
  norm_num [hlog]

lemma cx_argsort2 :
    argsortDesc [((Real.log 2 : ℝ) : EReal), ((0 : ℝ) : EReal), (⊥ : EReal)] =
      [0, 1, 2] := by
  have hlog : (0 : ℝ) ≤ Real.log 2 := Real.log_nonneg (by norm_num)
  unfold argsortDesc
  show (List.range 3).insertionSort _ = [0, 1, 2]
  simp only [List.insertionSort, List.orderedInsert]
  norm_num [hlog]

lemma cx_eexp_log2 : eexp ((Real.log 2 : ℝ) : EReal) = 2 := by
  rw [eexp_coe, Real.exp_log]
  norm_num

lemma cx_eexp_zero : eexp ((0 : ℝ) : EReal) = 1 := by
  rw [eexp_coe, Real.exp_zero]

lemma cx_softmax1 :
    softmaxE [((Real.log 2 : ℝ) : EReal), ((0 : ℝ) : EReal), ((0 : ℝ) : EReal)] =
      [1/2, 1/4, 1/4] := by
  unfold softmaxE
  simp only [List.map_cons, List.map_nil, List.sum_cons, List.sum_nil, cx_eexp_log2,
    cx_eexp_zero]
  norm_num

lemma cx_softmax2 :
    softmaxE [((Real.log 2 : ℝ) : EReal), ((0 : ℝ) : EReal), (⊥ : EReal)] =
      [2/3, 1/3, 0] := by
  unfold softmaxE
  simp only [List.map_cons, List.map_nil, List.sum_cons, List.sum_nil, cx_eexp_log2,
    cx_eexp_zero, eexp_bot]
  norm_num

lemma cx_cumsum1 : cumsum [1/2, 1/4, 1/4] = [1/2, 3/4, 1] := by
  unfold cumsum
  norm_num [List.range_succ]

lemma cx_cumsum2 : cumsum [2/3, 1/3, 0] = [2/3, 1, 1] := by
  unfold cumsum
  norm_num [List.range_succ]

lemma cx_flags1 :
    nucleusFlags [((Real.log 2 : ℝ) : EReal), ((0 : ℝ) : EReal), ((0 : ℝ) : EReal)] (3/5) =
      [false, false, true] := by
  unfold nucleusFlags
  rw [cx_argsort1]
  have hs : ([0, 1, 2].map fun i =>
      ([((Real.log 2 : ℝ) : EReal), ((0 : ℝ) : EReal), ((0 : ℝ) : EReal)]).getD i ⊥) =
      [((Real.log 2 : ℝ) : EReal), ((0 : ℝ) : EReal), ((0 : ℝ) : EReal)] := rfl
  rw [hs]
  show false :: ((cumsum (softmaxE
      [((Real.log 2 : ℝ) : EReal), ((0 : ℝ) : EReal), ((0 : ℝ) : EReal)])).map
        fun c => decide ((3 : ℝ)/5 < c)).dropLast = [false, false, true]
  rw [cx_softmax1, cx_cumsum1]
  simp only [List.map_cons, List.map_nil]
  rw [decide_eq_false (by norm_num : ¬ (3/5 : ℝ) < 1/2),
    decide_eq_true (by norm_num : (3/5 : ℝ) < 3/4),
    decide_eq_true (by norm_num : (3/5 : ℝ) < 1)]
  rfl

lemma cx_flags2 :
    nucleusFlags [((Real.log 2 : ℝ) : EReal), ((0 : ℝ) : EReal), (⊥ : EReal)] (3/5) =
      [false, true, true] := by
  unfold nucleusFlags
  rw [cx_argsort2]
  have hs : ([0, 1, 2].map fun i =>
      ([((Real.log 2 : ℝ) : EReal), ((0 : ℝ) : EReal), (⊥ : EReal)]).getD i ⊥) =
      [((Real.log 2 : ℝ) : EReal), ((0 : ℝ) : EReal), (⊥ : EReal)] := rfl
  rw [hs]
  show false :: ((cumsum (softmaxE
      [((Real.log 2 : ℝ) : EReal), ((0 : ℝ) : EReal), (⊥ : EReal)])).map
        fun c => decide ((3 : ℝ)/5 < c)).dropLast = [false, true, true]
  rw [cx_softmax2, cx_cumsum2]
  simp only [List.map_cons, List.map_nil]
  rw [decide_eq_true (by norm_num : (3/5 : ℝ) < 2/3),
    decide_eq_true (by norm_num : (3/5 : ℝ) < 1)]
  rfl

lemma cx_remove1 :
    nucleusRemove [((Real.log 2 : ℝ) : EReal), ((0 : ℝ) : EReal), ((0 : ℝ) : EReal)] (3/5) =
      [2] := by
  unfold nucleusRemove
  rw [cx_argsort1, cx_flags1]
  rfl

lemma cx_remove2 :
    nucleusRemove [((Real.log 2 : ℝ) : EReal), ((0 : ℝ) : EReal), (⊥ : EReal)] (3/5) =
      [1, 2] := by
  unfold nucleusRemove
  rw [cx_argsort2, cx_flags2]
  rfl

lemma cx_filter1 :
    top_filtering [((Real.log 2 : ℝ) : EReal), ((0 : ℝ) : EReal), ((0 : ℝ) : EReal)]
        0 (3/5) ⊥ ⊥ =
      [((Real.log 2 : ℝ) : EReal), ((0 : ℝ) : EReal), (⊥ : EReal)] := by
  unfold top_filtering
  rw [topkStep_zero, threshStep_bot]
  unfold nucleusStep
  rw [if_pos (by norm_num : (0 : ℝ) < 3/5), cx_remove1]
  show (List.range 3).map _ = _
  norm_num [List.range_succ]

lemma cx_filter2 :
    top_filtering [((Real.log 2 : ℝ) : EReal), ((0 : ℝ) : EReal), (⊥ : EReal)]
        0 (3/5) ⊥ ⊥ =
      [((Real.log 2 : ℝ) : EReal), (⊥ : EReal), (⊥ : EReal)] := by
  unfold top_filtering
  rw [topkStep_zero, threshStep_bot]
  unfold nucleusStep
  rw [if_pos (by norm_num : (0 : ℝ) < 3/5), cx_remove2]
  show (List.range 3).map _ = _
  norm_num [List.range_succ]

/-- Counterexample to C3 as stated: at the real score vector
`[log 2, 0, 0]` with `top_k = 0`, `top_p = 3/5` and default threshold, a
second application of `top_filtering` removes a further entry. -/
theorem C3_counterexample :
    top_filtering (top_filtering ([Real.log 2, 0, 0].map Real.toEReal) 0 (3/5) ⊥ ⊥)
        0 (3/5) ⊥ ⊥ ≠
      top_filtering ([Real.log 2, 0, 0].map Real.toEReal) 0 (3/5) ⊥ ⊥ := by
  have hX : [Real.log 2, 0, 0].map Real.toEReal =
      [((Real.log 2 : ℝ) : EReal), ((0 : ℝ) : EReal), ((0 : ℝ) : EReal)] := rfl
  rw [hX, cx_filter1, cx_filter2]
  intro h
  have h1 : (⊥ : EReal) = ((0 : ℝ) : EReal) := by
    have := congrArg (fun L => L.getD 1 ⊥) h
    simpa using this
  exact (EReal.coe_ne_bot 0) h1.symm

/-- Witness for C2 at the concrete input `l = [2, 1]`, `k = 1`. -/
theorem C2_topk_survivors_witness :
    min 1 (List.length [(2 : ℝ), 1]) ≤
      (survivors (top_filtering ([(2 : ℝ), 1].map Real.toEReal) 1 0 ⊥ ⊥)).card :=
  (C2_topk_survivors [(2 : ℝ), 1] 1 (by norm_num)).2.1

/-! ### Lemmas about the resampling guard -/

lemma resampleLoop_sound (special : List ℕ) (probs : List ℝ) (draw : ℕ → List ℝ → ℕ) :
    ∀ gf j t, resampleLoop special probs draw gf j = some t →
      t ∉ special ∧ ∃ m, m < gf ∧ t = draw (j + m) probs ∧
        ∀ m', m' < m → draw (j + m') probs ∈ special
  | 0, j, t, h => Option.noConfusion h
  | gf + 1, j, t, h => by
      unfold resampleLoop at h
      by_cases hd : draw j probs ∈ special
      · rw [if_pos hd] at h
        obtain ⟨hns, m, hm, ht, hprev⟩ :=
          resampleLoop_sound special probs draw gf (j + 1) t h
        refine ⟨hns, m + 1, by omega, ?_, ?_⟩
        · rw [ht]
          congr 1
          omega
        · intro m' hm'
          rcases Nat.eq_zero_or_pos m' with h0 | hpos
          · subst h0
            simpa using hd
          · have heq : j + m' = j + 1 + (m' - 1) := by omega
            rw [heq]
            exact hprev (m' - 1) (by omega)
      · rw [if_neg hd] at h
        have ht : t = draw j probs := (Option.some.inj h).symm
        refine ⟨by rw [ht]; exact hd, 0, by omega, by rw [ht, Nat.add_zero], ?_⟩
        intro m' hm'
        exact absurd hm' (Nat.not_lt_zero m')

lemma resampleLoop_exits (special : List ℕ) (probs : List ℝ) (draw : ℕ → List ℝ → ℕ) :
    ∀ gf j, (∃ m, m < gf ∧ draw (j + m) probs ∉ special) →
      ∃ t, resampleLoop special probs draw gf j = some t ∧ t ∉ special
  | 0, j, h => by
      obtain ⟨m, hm, _⟩ := h
      exact absurd hm (Nat.not_lt_zero m)
  | gf + 1, j, h => by
      unfold resampleLoop
      by_cases hd : draw j probs ∈ special
      · rw [if_pos hd]
        obtain ⟨m, hm, hns⟩ := h
        have hm0 : m ≠ 0 := by
          intro h0
          subst h0
          rw [Nat.add_zero] at hns
          exact hns hd
        apply resampleLoop_exits special probs draw gf (j + 1)
        refine ⟨m - 1, by omega, ?_⟩
        have heq : j + 1 + (m - 1) = j + m := by omega
        rw [heq]
        exact hns
      · rw [if_neg hd]
        exact ⟨draw j probs, rfl, hd⟩

lemma resampleLoop_stuck (special : List ℕ) (probs : List ℝ) (draw : ℕ → List ℝ → ℕ)
    (h : ∀ m, draw m probs ∈ special) :
    ∀ gf j, resampleLoop special probs draw gf j = none
  | 0, _ => rfl
  | gf + 1, j => by
      unfold resampleLoop
      rw [if_pos (h j)]
      exact resampleLoop_stuck special probs draw h gf (j + 1)

/-! ### Branch equations of the generation loop -/

lemma genLoop_zero {P : Type} (M : List ℕ → List ℕ → Option P → List ℝ × P)
    (special : List ℕ) (args : Args) (ω : ℕ → ℕ → List ℝ → ℕ) (gf ttype i : ℕ)
    (lg : List ℝ) (past : P) (acc : List ℕ) :
    genLoop M special args ω gf ttype 0 i lg past acc = ⟨some acc, false, past, []⟩ := rfl

lemma genLoop_guard_div {P : Type} {M : List ℕ → List ℕ → Option P → List ℝ × P}
    {special : List ℕ} {args : Args} {ω : ℕ → ℕ → List ℝ → ℕ} {gf ttype r i : ℕ}
    {lg : List ℝ} {past : P} {acc : List ℕ}
    (hc : i < args.min_length ∧ selectTok args ω i (stepProbs args lg) ∈ special)
    (hrl : resampleLoop special (stepProbs args lg) (fun j d => ω i j d) gf 1 = none) :
    genLoop M special args ω gf ttype (r + 1) i lg past acc = ⟨none, true, past, []⟩ := by
  simp only [genLoop]
  rw [if_pos hc, hrl]

lemma genLoop_guard_stop {P : Type} {M : List ℕ → List ℕ → Option P → List ℝ × P}
    {special : List ℕ} {args : Args} {ω : ℕ → ℕ → List ℝ → ℕ} {gf ttype r i : ℕ}
    {lg : List ℝ} {past : P} {acc : List ℕ} {prev : ℕ}
    (hc : i < args.min_length ∧ selectTok args ω i (stepProbs args lg) ∈ special)
    (hrl : resampleLoop special (stepProbs args lg) (fun j d => ω i j d) gf 1 = some prev)
    (hps : prev ∈ special) :
    genLoop M special args ω gf ttype (r + 1) i lg past acc = ⟨some acc, true, past, []⟩ := by
  simp only [genLoop]
  rw [if_pos hc, hrl]
  simp only []
  rw [if_pos hps]

lemma genLoop_guard_step {P : Type} {M : List ℕ → List ℕ → Option P → List ℝ × P}
    {special : List ℕ} {args : Args} {ω : ℕ → ℕ → List ℝ → ℕ} {gf ttype r i : ℕ}
    {lg : List ℝ} {past : P} {acc : List ℕ} {prev : ℕ}
    (hc : i < args.min_length ∧ selectTok args ω i (stepProbs args lg) ∈ special)
    (hrl : resampleLoop special (stepProbs args lg) (fun j d => ω i j d) gf 1 = some prev)
    (hps : prev ∉ special) :
    genLoop M special args ω gf ttype (r + 1) i lg past acc =
      { genStep M special args ω gf ttype prev r i past acc with guardUsed := true } := by
  simp only [genLoop]
  rw [if_pos hc, hrl]
  simp only []
  rw [if_neg hps]
  simp only [genStep]

lemma genLoop_stop {P : Type} {M : List ℕ → List ℕ → Option P → List ℝ × P}
    {special : List ℕ} {args : Args} {ω : ℕ → ℕ → List ℝ → ℕ} {gf ttype r i : ℕ}
    {lg : List ℝ} {past : P} {acc : List ℕ}
    (hc : ¬ (i < args.min_length ∧ selectTok args ω i (stepProbs args lg) ∈ special))
    (hps : selectTok args ω i (stepProbs args lg) ∈ special) :
    genLoop M special args ω gf ttype (r + 1) i lg past acc = ⟨some acc, false, past, []⟩ := by
  simp only [genLoop]
  rw [if_neg hc, if_pos hps]

lemma genLoop_step {P : Type} {M : List ℕ → List ℕ → Option P → List ℝ × P}
    {special : List ℕ} {args : Args} {ω : ℕ → ℕ → List ℝ → ℕ} {gf ttype r i : ℕ}
    {lg : List ℝ} {past : P} {acc : List ℕ}
    (hc : ¬ (i < args.min_length ∧ selectTok args ω i (stepProbs args lg) ∈ special))
    (hps : selectTok args ω i (stepProbs args lg) ∉ special) :
    genLoop M special args ω gf ttype (r + 1) i lg past acc =
      genStep M special args ω gf ttype (selectTok args ω i (stepProbs args lg))
        r i past acc := by
  simp only [genLoop]
  rw [if_neg hc, if_neg hps]
  simp only [genStep]

/-! ### Unfolding of `sampleSequence` and loop invariants -/

lemma sampleSequence_inst {P : Type} (M : List ℕ → List ℕ → Option P → List ℝ × P)
    (buildInput : Bool → Inst → List ℕ × List ℕ) (special : List ℕ) (args : Args)
    (ω : ℕ → ℕ → List ℝ → ℕ) (gf : ℕ) (inst : Inst) (past : Option P) :
    (sampleSequence M buildInput special args ω gf inst past).inst =
      (genLoop M special args ω gf
        ((buildInput false { inst with question := [], paragraph := [] }).2.getLastD 0)
        args.max_length 0
        (M ((buildInput false { inst with question := [], paragraph := [] }).1.drop 1)
          ((buildInput false { inst with question := [], paragraph := [] }).2.drop 1)
          past).1
        (M ((buildInput false { inst with question := [], paragraph := [] }).1.drop 1)
          ((buildInput false { inst with question := [], paragraph := [] }).2.drop 1)
          past).2
        []).question.map (fun q => { inst with question := q }) := rfl

lemma genLoop_ne_none {P : Type} (M : List ℕ → List ℕ → Option P → List ℝ × P)
    (special : List ℕ) (args : Args) (ω : ℕ → ℕ → List ℝ → ℕ) (gf ttype : ℕ)
    (hω : ∀ i d, ∃ m, m < gf ∧ ω i (1 + m) d ∉ special) :
    ∀ r i lg (past : P) acc,
      (genLoop M special args ω gf ttype r i lg past acc).question ≠ none := by
  intro r
  induction r with
  | zero =>
    intro i lg past acc
    rw [genLoop_zero]
    simp
  | succ r ih =>
    intro i lg past acc
    by_cases hc : i < args.min_length ∧ selectTok args ω i (stepProbs args lg) ∈ special
    · obtain ⟨t, ht, hts⟩ := resampleLoop_exits special (stepProbs args lg)
        (fun j d => ω i j d) gf 1 (hω i (stepProbs args lg))
      rw [genLoop_guard_step hc ht hts]
      simp only [genStep]
      exact ih (i + 1) _ _ _
    · by_cases hps : selectTok args ω i (stepProbs args lg) ∈ special
      · rw [genLoop_stop hc hps]
        simp
      · rw [genLoop_step hc hps]
        simp only [genStep]
        exact ih (i + 1) _ _ _

/-! ### Claim C6 -/

/-- C6: the early-termination guard resamples from the SAME unrenormalized
distribution `probs` (every inspected token is `draw j probs` for the one
fixed `probs`, special tokens are skipped, and the first non-special draw
is returned); whenever the sampler eventually produces a non-special token
— which, under the precondition that the filtered distribution assigns
positive probability to some non-special token, happens with probability
one — the guard exits; when every draw is special (in particular when the
distribution's support holds only special tokens) no fuel bound makes the
guard exit, so no bound on its iterations exists; and when at every
iteration some draw within the fuel is non-special, `sample_sequence`
returns a result, its outer loop being bounded by `max_length`. -/
theorem C6_guard (special : List ℕ) (probs : List ℝ) (draw : ℕ → List ℝ → ℕ) :
    (∀ gf j t, resampleLoop special probs draw gf j = some t →
      t ∉ special ∧ ∃ m, m < gf ∧ t = draw (j + m) probs ∧
        ∀ m', m' < m → draw (j + m') probs ∈ special) ∧
    (∀ gf j, (∃ m, m < gf ∧ draw (j + m) probs ∉ special) →
      ∃ t, resampleLoop special probs draw gf j = some t ∧ t ∉ special) ∧
    ((∀ m, draw m probs ∈ special) →
      ∀ gf j, resampleLoop special probs draw gf j = none) ∧
    (∀ (P : Type) (M : List ℕ → List ℕ → Option P → List ℝ × P)
      (buildInput : Bool → Inst → List ℕ × List ℕ) (args : Args)
      (ω : ℕ → ℕ → List ℝ → ℕ) (gf : ℕ) (inst : Inst) (past : Option P),
      (∀ i d, ∃ m, m < gf ∧ ω i (1 + m) d ∉ special) →
      (sampleSequence M buildInput special args ω gf inst past).inst ≠ none) := by
  refine ⟨resampleLoop_sound special probs draw,
    resampleLoop_exits special probs draw,
    fun h => resampleLoop_stuck special probs draw h, ?_⟩
  intro P M buildInput args ω gf inst past hω
  rw [sampleSequence_inst]
  intro hq
  rw [Option.map_eq_none'] at hq
  exact genLoop_ne_none M special args ω gf _ hω args.max_length 0 _ _ [] hq

/-- Witness for C6: with a distribution whose every draw is the special
token `0`, the guard exits for no fuel bound. -/
theorem C6_guard_witness :
    resampleLoop [0] [1] (fun _ _ => 0) 3 1 = none :=
  (C6_guard [0] [1] (fun _ _ => 0)).2.2.1 (fun m => by simp) 3 1

/-! ### Claim C4 -/

lemma genLoop_question_spec {P : Type} (M : List ℕ → List ℕ → Option P → List ℝ × P)
    (special : List ℕ) (args : Args) (ω : ℕ → ℕ → List ℝ → ℕ) (gf ttype : ℕ) :
    ∀ r i lg (past : P) acc q,
      (genLoop M special args ω gf ttype r i lg past acc).question = some q →
      ∃ ext, q = acc ++ ext ∧ ext.length ≤ r ∧ ∀ t ∈ ext, t ∉ special := by
  intro r
  induction r with
  | zero =>
    intro i lg past acc q h
    rw [genLoop_zero] at h
    obtain rfl := Option.some.inj h
    exact ⟨[], by simp, by simp, by simp⟩
  | succ r ih =>
    intro i lg past acc q h
    by_cases hc : i < args.min_length ∧ selectTok args ω i (stepProbs args lg) ∈ special
    · rcases hrl : resampleLoop special (stepProbs args lg) (fun j d => ω i j d) gf 1
        with _ | prev
      · rw [genLoop_guard_div hc hrl] at h
        exact Option.noConfusion h
      · by_cases hps : prev ∈ special
        · rw [genLoop_guard_stop hc hrl hps] at h
          obtain rfl := Option.some.inj h
          exact ⟨[], by simp, by simp, by simp⟩
        · rw [genLoop_guard_step hc hrl hps] at h
          simp only [genStep] at h
          obtain ⟨ext, hq, hlen, hmem⟩ := ih (i + 1) _ _ (acc ++ [prev]) q h
          refine ⟨prev :: ext, ?_, ?_, ?_⟩
          · rw [hq]
            simp
          · simp only [List.length_cons]
            omega
          · intro t ht
            rcases List.mem_cons.mp ht with rfl | hmt
            · exact hps
            · exact hmem t hmt
    · by_cases hps : selectTok args ω i (stepProbs args lg) ∈ special
      · rw [genLoop_stop hc hps] at h
        obtain rfl := Option.some.inj h
        exact ⟨[], by simp, by simp, by simp⟩
      · rw [genLoop_step hc hps] at h
        simp only [genStep] at h
        obtain ⟨ext, hq, hlen, hmem⟩ :=
          ih (i + 1) _ _ (acc ++ [selectTok args ω i (stepProbs args lg)]) q h
        refine ⟨selectTok args ω i (stepProbs args lg) :: ext, ?_, ?_, ?_⟩
        · rw [hq]
          simp
        · simp only [List.length_cons]
          omega
        · intro t ht
          rcases List.mem_cons.mp ht with rfl | hmt
          · exact hps
          · exact hmem t hmt

/-- C4: whatever the instance, the configuration, the model collaborator
and the random draws, when `sample_sequence` returns an instance, its
question has length at most `max_length` and contains no special token id
(reaching `max_length` without a special token is a normal return). -/
theorem C4_question_bounds {P : Type} (M : List ℕ → List ℕ → Option P → List ℝ × P)
    (buildInput : Bool → Inst → List ℕ × List ℕ) (special : List ℕ) (args : Args)
    (ω : ℕ → ℕ → List ℝ → ℕ) (gf : ℕ) (inst : Inst) (past : Option P) (out : Inst)
    (h : (sampleSequence M buildInput special args ω gf inst past).inst = some out) :
    out.question.length ≤ args.max_length ∧ ∀ t ∈ out.question, t ∉ special := by
  rw [sampleSequence_inst, Option.map_eq_some'] at h
  obtain ⟨q, hq, hout⟩ := h
  obtain ⟨ext, hqe, hlen, hmem⟩ :=
    genLoop_question_spec M special args ω gf _ args.max_length 0 _ _ [] q hq
  have hq2 : q = ext := by simpa using hqe
  have houtq : out.question = q := by
    rw [← hout]
  rw [houtq, hq2]
  exact ⟨hlen, hmem⟩

/-! ### Claim C5 -/

lemma genLoop_no_sample_det {P : Type} (M : List ℕ → List ℕ → Option P → List ℝ × P)
    (special : List ℕ) (args : Args) (gf ttype : ℕ) (hns : args.no_sample = true) :
    ∀ r i lg (past : P) acc (ω ω' : ℕ → ℕ → List ℝ → ℕ),
      (genLoop M special args ω gf ttype r i lg past acc).guardUsed = false →
      genLoop M special args ω' gf ttype r i lg past acc
        = genLoop M special args ω gf ttype r i lg past acc := by
  intro r
  induction r with
  | zero =>
    intro i lg past acc ω ω' _
    rw [genLoop_zero, genLoop_zero]
  | succ r ih =>
    intro i lg past acc ω ω' hgu
    have hsel : ∀ ω₀ : ℕ → ℕ → List ℝ → ℕ,
        selectTok args ω₀ i (stepProbs args lg) = argmaxIdx (stepProbs args lg) := by
      intro ω₀
      unfold selectTok
      rw [hns]
      simp
    by_cases hc : i < args.min_length ∧ argmaxIdx (stepProbs args lg) ∈ special
    · exfalso
      have hcω : i < args.min_length ∧ selectTok args ω i (stepProbs args lg) ∈ special := by
        rw [hsel ω]
        exact hc
      rcases hrl : resampleLoop special (stepProbs args lg) (fun j d => ω i j d) gf 1
        with _ | prev
      · rw [genLoop_guard_div hcω hrl] at hgu
        simp at hgu
      · by_cases hps : prev ∈ special
        · rw [genLoop_guard_stop hcω hrl hps] at hgu
          simp at hgu
        · rw [genLoop_guard_step hcω hrl hps] at hgu
          simp at hgu
    · have hcω : ¬ (i < args.min_length ∧
          selectTok args ω i (stepProbs args lg) ∈ special) := by
        rw [hsel ω]
        exact hc
      have hcω' : ¬ (i < args.min_length ∧
          selectTok args ω' i (stepProbs args lg) ∈ special) := by
        rw [hsel ω']
        exact hc
      by_cases hps : argmaxIdx (stepProbs args lg) ∈ special
      · rw [genLoop_stop hcω (by rw [hsel ω]; exact hps),
          genLoop_stop hcω' (by rw [hsel ω']; exact hps)]
      · have hpsω : selectTok args ω i (stepProbs args lg) ∉ special := by
          rw [hsel ω]
          exact hps
        have hpsω' : selectTok args ω' i (stepProbs args lg) ∉ special := by
          rw [hsel ω']
          exact hps
        rw [genLoop_step hcω hpsω] at hgu
        rw [genLoop_step hcω hpsω, genLoop_step hcω' hpsω']
        rw [hsel ω, hsel ω'] at *
        simp only [genStep] at hgu ⊢
        rw [ih (i + 1) _ _ _ ω ω' hgu]

/-- C5 (amended): with `no_sample = true`, the output of `sample_sequence`
does not depend on the multinomial draws PROVIDED the pre-`min_length`
guard is never entered during the run (in particular whenever
`min_length = 0`): two calls with identical inputs and identical
CachedState then produce identical results.  When the guard is entered
(the greedy argmax lands on a special token before `min_length`), the
guard itself draws from `torch.multinomial`, so the output can depend on
the random draws even under greedy decoding; see the counterexample. -/
theorem C5_greedy_det {P : Type} (M : List ℕ → List ℕ → Option P → List ℝ × P)
    (buildInput : Bool → Inst → List ℕ × List ℕ) (special : List ℕ) (args : Args)
    (ω ω' : ℕ → ℕ → List ℝ → ℕ) (gf : ℕ) (inst : Inst) (past : Option P)
    (hns : args.no_sample = true)
    (hgu : (sampleSequence M buildInput special args ω gf inst past).guardUsed = false) :
    sampleSequence M buildInput special args ω' gf inst past
      = sampleSequence M buildInput special args ω gf inst past := by
  simp only [sampleSequence] at hgu ⊢
  rw [genLoop_no_sample_det M special args gf _ hns args.max_length 0 _ _ [] ω ω' hgu]

/-! ### Claim C8 -/

lemma genLoop_calls_singleton {P : Type} (M : List ℕ → List ℕ → Option P → List ℝ × P)
    (special : List ℕ) (args : Args) (ω : ℕ → ℕ → List ℝ → ℕ) (gf ttype : ℕ) :
    ∀ r i lg (past : P) acc c,
      c ∈ (genLoop M special args ω gf ttype r i lg past acc).calls →
      c.1.length = 1 ∧ c.2.length = 1 := by
  intro r
  induction r with
  | zero =>
    intro i lg past acc c hc
    rw [genLoop_zero] at hc
    exact absurd hc (List.not_mem_nil c)
  | succ r ih =>
    intro i lg past acc c hc
    by_cases hg : i < args.min_length ∧ selectTok args ω i (stepProbs args lg) ∈ special
    · rcases hrl : resampleLoop special (stepProbs args lg) (fun j d => ω i j d) gf 1
        with _ | prev
      · rw [genLoop_guard_div hg hrl] at hc
        exact absurd hc (List.not_mem_nil c)
      · by_cases hps : prev ∈ special
        · rw [genLoop_guard_stop hg hrl hps] at hc
          exact absurd hc (List.not_mem_nil c)
        · rw [genLoop_guard_step hg hrl hps] at hc
          simp only [genStep] at hc
          rcases List.mem_cons.mp hc with rfl | hmt
          · exact ⟨rfl, rfl⟩
          · exact ih (i + 1) _ _ _ c hmt
    · by_cases hps : selectTok args ω i (stepProbs args lg) ∈ special
      · rw [genLoop_stop hg hps] at hc
        exact absurd hc (List.not_mem_nil c)
      · rw [genLoop_step hg hps] at hc
        simp only [genStep] at hc
        rcases List.mem_cons.mp hc with rfl | hmt
        · exact ⟨rfl, rfl⟩
        · exact ih (i + 1) _ _ _ c hmt

/-- C8: `sample_sequence` builds its initial decoder input from the
instance's structural segments (via `build_input_from_segments` on the
instance with emptied question and paragraph, without the end-of-sequence
marker, dropping the leading extra token), makes EXACTLY ONE initial
language-model call on that input — the head of the call trace, every
later call feeding a single token — and the logits and updated CachedState
of that call are what the generation loop consumes. -/
theorem C8_initial_call {P : Type} (M : List ℕ → List ℕ → Option P → List ℝ × P)
    (buildInput : Bool → Inst → List ℕ × List ℕ) (special : List ℕ) (args : Args)
    (ω : ℕ → ℕ → List ℝ → ℕ) (gf : ℕ) (inst : Inst) (past : Option P) :
    (sampleSequence M buildInput special args ω gf inst past).calls.head? =
      some ((buildInput false { inst with question := [], paragraph := [] }).1.drop 1,
        (buildInput false { inst with question := [], paragraph := [] }).2.drop 1) ∧
    (∀ c ∈ (sampleSequence M buildInput special args ω gf inst past).calls.tail,
      c.1.length = 1 ∧ c.2.length = 1) ∧
    (sampleSequence M buildInput special args ω gf inst past).inst =
      (genLoop M special args ω gf
        ((buildInput false { inst with question := [], paragraph := [] }).2.getLastD 0)
        args.max_length 0
        (M ((buildInput false { inst with question := [], paragraph := [] }).1.drop 1)
          ((buildInput false { inst with question := [], paragraph := [] }).2.drop 1)
          past).1
        (M ((buildInput false { inst with question := [], paragraph := [] }).1.drop 1)
          ((buildInput false { inst with question := [], paragraph := [] }).2.drop 1)
          past).2
        []).question.map (fun q => { inst with question := q }) := by
  refine ⟨rfl, ?_, sampleSequence_inst M buildInput special args ω gf inst past⟩
  intro c hc
  exact genLoop_calls_singleton M special args ω gf _ args.max_length 0 _ _ [] c hc

/-! ### Evaluation of the fixtures -/

lemma stepProbs_eval (args : Args) (h1 : args.temperature = 1) (h2 : args.top_k = 0)
    (h3 : args.top_p = 0) : stepProbs args [0, 0, 0] = [1/3, 1/3, 1/3] := by
  unfold stepProbs
  rw [h1, h2, h3]
  have hmap : (([0, 0, 0] : List ℝ).map fun x => x / 1) = [0, 0, 0] := by norm_num
  rw [hmap, top_filtering_p0, threshStep_bot, topkStep_zero]
  have h0 : eexp (Real.toEReal 0) = 1 := by
    rw [show Real.toEReal 0 = ((0 : ℝ) : EReal) from rfl, eexp_coe, Real.exp_zero]
  unfold softmaxE
  simp only [List.map_cons, List.map_nil, List.sum_cons, List.sum_nil, h0]
  norm_num

lemma argmaxIdx_eval : argmaxIdx [1/3, 1/3, 1/3] = 0 := by
  unfold argmaxIdx
  have hr : List.range ([(1 : ℝ)/3, 1/3, 1/3].length) = [0, 1, 2] := rfl
  rw [hr]
  simp only [List.foldl_cons, List.foldl_nil]
  have hlt : ¬ (([(1 : ℝ)/3, 1/3, 1/3].getD 0 0) < ([(1 : ℝ)/3, 1/3, 1/3].getD 1 0)) := by
    norm_num
  have hlt2 : ¬ (([(1 : ℝ)/3, 1/3, 1/3].getD 0 0) < ([(1 : ℝ)/3, 1/3, 1/3].getD 2 0)) := by
    norm_num
  rw [ite_self, if_neg hlt, if_neg hlt2]

lemma selectTok_fix_eval (args : Args) (hns : args.no_sample = true)
    (h1 : args.temperature = 1) (h2 : args.top_k = 0) (h3 : args.top_p = 0)
    (ω : ℕ → ℕ → List ℝ → ℕ) (i : ℕ) :
    selectTok args ω i (stepProbs args [0, 0, 0]) = 0 := by
  unfold selectTok
  rw [if_pos hns, stepProbs_eval args h1 h2 h3, argmaxIdx_eval]

/-- fixture run without the guard: `argsFix` has `min_length = 0` and the
greedy argmax is the special token `0`, so the loop stops at once. -/
lemma ssFix (ω : ℕ → ℕ → List ℝ → ℕ) (gf : ℕ) :
    sampleSequence Mfix buildFix [0] argsFix ω gf instFix (some [9, 8]) =
      ⟨some { instFix with question := [] }, false, [9, 8, 8, 7, 6],
        [([8, 7, 6], [5, 5, 5])]⟩ := by
  have hstop : genLoop Mfix [0] argsFix ω gf 5 1 0 [0, 0, 0] [9, 8, 8, 7, 6] []
      = ⟨some [], false, [9, 8, 8, 7, 6], []⟩ := by
    have hc : ¬ ((0 : ℕ) < argsFix.min_length ∧
        selectTok argsFix ω 0 (stepProbs argsFix [0, 0, 0]) ∈ [0]) :=
      fun h => Nat.lt_irrefl 0 h.1
    exact genLoop_stop (r := 0) hc
      (by rw [selectTok_fix_eval argsFix rfl rfl rfl rfl ω 0]; simp)
  have hun : sampleSequence Mfix buildFix [0] argsFix ω gf instFix (some [9, 8]) =
      ⟨(genLoop Mfix [0] argsFix ω gf 5 1 0 [0, 0, 0] [9, 8, 8, 7, 6] []).question.map
          (fun q => { instFix with question := q }),
        (genLoop Mfix [0] argsFix ω gf 5 1 0 [0, 0, 0] [9, 8, 8, 7, 6] []).guardUsed,
        (genLoop Mfix [0] argsFix ω gf 5 1 0 [0, 0, 0] [9, 8, 8, 7, 6] []).pastFinal,
        ([8, 7, 6], [5, 5, 5]) ::
          (genLoop Mfix [0] argsFix ω gf 5 1 0 [0, 0, 0] [9, 8, 8, 7, 6] []).calls⟩ := rfl
  rw [hun, hstop]
  rfl

/-- fixture run triggering the guard: `argsFixMin` has `min_length = 1`,
the greedy argmax is the special token `0`, so the guard redraws; with the
constant sampler returning the non-special token `c`, the result is the
question `[c]`. -/
lemma ssFixMin (c : ℕ) (hc0 : c ∉ ([0] : List ℕ)) :
    sampleSequence Mfix buildFix [0] argsFixMin (fun _ _ _ => c) 1 instFix
        (some [9, 8]) =
      ⟨some { instFix with question := [c] }, true, [9, 8, 8, 7, 6, c],
        [([8, 7, 6], [5, 5, 5]), ([c], [5])]⟩ := by
  have hcnd : (0 : ℕ) < argsFixMin.min_length ∧
      selectTok argsFixMin (fun _ _ _ => c) 0 (stepProbs argsFixMin [0, 0, 0]) ∈ [0] := by
    refine ⟨Nat.zero_lt_one, ?_⟩
    rw [selectTok_fix_eval argsFixMin rfl rfl rfl rfl _ 0]
    simp
  have hrl : resampleLoop [0] (stepProbs argsFixMin [0, 0, 0])
      (fun j d => (fun _ _ _ => c : ℕ → ℕ → List ℝ → ℕ) 0 j d) 1 1 = some c := by
    unfold resampleLoop
    rw [if_neg (by simpa using hc0)]
  have hguard : genLoop Mfix [0] argsFixMin (fun _ _ _ => c) 1 5 1 0 [0, 0, 0]
      [9, 8, 8, 7, 6] [] =
      { genStep Mfix [0] argsFixMin (fun _ _ _ => c) 1 5 c 0 0 [9, 8, 8, 7, 6] []
        with guardUsed := true } :=
    genLoop_guard_step (r := 0) hcnd hrl hc0
  have hstep : genStep Mfix [0] argsFixMin (fun _ _ _ => c) 1 5 c 0 0 [9, 8, 8, 7, 6] []
      = ⟨some [c], false, [9, 8, 8, 7, 6, c], [([c], [5])]⟩ := by
    have hz : genLoop Mfix [0] argsFixMin (fun _ _ _ => c) 1 5 0 1
        [0, 0, 0] ([9, 8, 8, 7, 6] ++ [c]) ([] ++ [c]) = ⟨some ([] ++ [c]), false,
          [9, 8, 8, 7, 6] ++ [c], []⟩ := genLoop_zero _ _ _ _ _ _ _ _ _ _
    have hun2 : genStep Mfix [0] argsFixMin (fun _ _ _ => c) 1 5 c 0 0 [9, 8, 8, 7, 6] []
        = ⟨(genLoop Mfix [0] argsFixMin (fun _ _ _ => c) 1 5 0 1
              [0, 0, 0] ([9, 8, 8, 7, 6] ++ [c]) ([] ++ [c])).question,
           (genLoop Mfix [0] argsFixMin (fun _ _ _ => c) 1 5 0 1
              [0, 0, 0] ([9, 8, 8, 7, 6] ++ [c]) ([] ++ [c])).guardUsed,
           (genLoop Mfix [0] argsFixMin (fun _ _ _ => c) 1 5 0 1
              [0, 0, 0] ([9, 8, 8, 7, 6] ++ [c]) ([] ++ [c])).pastFinal,
           ([c], [5]) :: (genLoop Mfix [0] argsFixMin (fun _ _ _ => c) 1 5 0 1
              [0, 0, 0] ([9, 8, 8, 7, 6] ++ [c]) ([] ++ [c])).calls⟩ := rfl
    rw [hun2, hz]
    rfl
  have hun : sampleSequence Mfix buildFix [0] argsFixMin (fun _ _ _ => c) 1 instFix
      (some [9, 8]) =
      ⟨(genLoop Mfix [0] argsFixMin (fun _ _ _ => c) 1 5 1 0 [0, 0, 0]
          [9, 8, 8, 7, 6] []).question.map (fun q => { instFix with question := q }),
        (genLoop Mfix [0] argsFixMin (fun _ _ _ => c) 1 5 1 0 [0, 0, 0]
          [9, 8, 8, 7, 6] []).guardUsed,
        (genLoop Mfix [0] argsFixMin (fun _ _ _ => c) 1 5 1 0 [0, 0, 0]
          [9, 8, 8, 7, 6] []).pastFinal,
        ([8, 7, 6], [5, 5, 5]) :: (genLoop Mfix [0] argsFixMin (fun _ _ _ => c) 1 5 1 0
          [0, 0, 0] [9, 8, 8, 7, 6] []).calls⟩ := rfl
  rw [hun, hguard, hstep]
  rfl

/-- Witness for C4 at the toy model fixture. -/
theorem C4_question_bounds_witness :
    ({ instFix with question := [] } : Inst).question.length ≤ argsFix.max_length ∧
      ∀ t ∈ ({ instFix with question := [] } : Inst).question, t ∉ ([0] : List ℕ) :=
  C4_question_bounds Mfix buildFix [0] argsFix (fun _ _ _ => 1) 1 instFix (some [9, 8])
    { instFix with question := [] } (by rw [ssFix (fun _ _ _ => 1) 1])

/-- Counterexample to C5 as stated: under greedy decoding with
`min_length = 1`, the argmax lands on the special token, the guard draws
from `torch.multinomial`, and two runs differing only in the multinomial
draws produce different questions (`[1]` versus `[2]`). -/
theorem C5_counterexample :
    (sampleSequence Mfix buildFix [0] argsFixMin (fun _ _ _ => 1) 1 instFix
        (some [9, 8])).inst ≠
      (sampleSequence Mfix buildFix [0] argsFixMin (fun _ _ _ => 2) 1 instFix
        (some [9, 8])).inst := by
  rw [ssFixMin 1 (by decide), ssFixMin 2 (by decide)]
  simp [instFix]

/-- Witness for C5 at the toy model fixture (guard never entered). -/
theorem C5_greedy_det_witness :
    sampleSequence Mfix buildFix [0] argsFix (fun _ _ _ => 2) 1 instFix (some [9, 8])
      = sampleSequence Mfix buildFix [0] argsFix (fun _ _ _ => 1) 1 instFix
          (some [9, 8]) :=
  C5_greedy_det Mfix buildFix [0] argsFix (fun _ _ _ => 1) (fun _ _ _ => 2) 1 instFix
    (some [9, 8]) rfl (by rw [ssFix (fun _ _ _ => 1) 1])

/-- Witness for C8 at the toy model fixture. -/
theorem C8_initial_call_witness :
    ∀ c ∈ (sampleSequence Mfix buildFix [0] argsFix (fun _ _ _ => 1) 1 instFix
      (some [9, 8])).calls.tail, c.1.length = 1 ∧ c.2.length = 1 :=
  (C8_initial_call Mfix buildFix [0] argsFix (fun _ _ _ => 1) 1 instFix (some [9, 8])).2.1

/-! ### Lemmas about the run loop -/

lemma runStep_info {P : Type} (M : List ℕ → List ℕ → Option P → List ℝ × P)
    (buildInput : Bool → Inst → List ℕ × List ℕ) (decode : List ℕ → Bool → List ℕ)
    (special : List ℕ) (args : Args) (ω : ℕ → ℕ → List ℝ → ℕ) (gf : ℕ)
    (s : RunState P) (inst : Inst) :
    (runStep M buildInput decode special args ω gf s inst).2 =
      ⟨decide (s.prevIdx ≠ some inst.para_index),
        if decide (s.prevIdx ≠ some inst.para_index)
        then some ((M (buildInput false inst).1.dropLast.dropLast
          (buildInput false inst).2.dropLast.dropLast none).2)
        else s.past⟩ := by
  simp only [runStep]
  split
  · rfl
  · split
    · rfl
    · rfl

lemma runStep_ok_past {P : Type} (M : List ℕ → List ℕ → Option P → List ℝ × P)
    (buildInput : Bool → Inst → List ℕ × List ℕ) (decode : List ℕ → Bool → List ℕ)
    (special : List ℕ) (args : Args) (ω : ℕ → ℕ → List ℝ → ℕ) (gf : ℕ)
    (s : RunState P) (inst : Inst) (s' : RunState P)
    (h : (runStep M buildInput decode special args ω gf s inst).1 = Except.ok s') :
    s'.past = (runStep M buildInput decode special args ω gf s inst).2.passedPast := by
  rw [runStep_info]
  simp only [runStep] at h
  split at h
  · simp at h
  · split at h
    · simp at h
    · have h2 : Except.ok (⟨some inst.para_index,
          if decide (s.prevIdx ≠ some inst.para_index)
          then some ((M (buildInput false inst).1.dropLast.dropLast
            (buildInput false inst).2.dropLast.dropLast none).2)
          else s.past, _, s.qnum + 1⟩ : RunState P) = Except.ok s' := h
      obtain rfl := Except.ok.inj h2
      rfl

lemma runStep_eval {P : Type} (M : List ℕ → List ℕ → Option P → List ℝ × P)
    (buildInput : Bool → Inst → List ℕ × List ℕ) (decode : List ℕ → Bool → List ℕ)
    (special : List ℕ) (args : Args) (ω : ℕ → ℕ → List ℝ → ℕ) (gf : ℕ)
    (s : RunState P) (inst : Inst) (p1 : Option P)
    (hp1 : (if decide (s.prevIdx ≠ some inst.para_index)
      then some ((M (buildInput false inst).1.dropLast.dropLast
        (buildInput false inst).2.dropLast.dropLast none).2)
      else s.past) = p1)
    (out : Inst)
    (hout : (sampleSequence M buildInput special args ω gf inst p1).inst = some out)
    (ps : List Para)
    (hasm : assembleStep decode s.paragraphs s.qnum out = Except.ok ps) :
    runStep M buildInput decode special args ω gf s inst =
      (Except.ok ⟨some inst.para_index, p1, ps, s.qnum + 1⟩,
        ⟨decide (s.prevIdx ≠ some inst.para_index), p1⟩) := by
  simp only [runStep]
  rw [hp1, hout]
  simp only []
  rw [hasm]

/-! ### Claim C7 -/

/-- C7 (amended): the run loop discards and re-primes the CachedState
exactly when the incoming instance's `para_index` differs from the
previously processed one (including the very first instance); the priming
call's input is the built context with its two trailing tokens removed and
only the returned state (never the logits) is kept; and within a paragraph
group every `sample_sequence` call receives the SAME primed CachedState:
`sample_sequence` returns no CachedState (its internal updates stay
local), so on a non-reset step the state passed on is the unchanged
`s.past`, and the successor state keeps exactly that state. -/
theorem C7_cache_management {P : Type} (M : List ℕ → List ℕ → Option P → List ℝ × P)
    (buildInput : Bool → Inst → List ℕ × List ℕ) (decode : List ℕ → Bool → List ℕ)
    (special : List ℕ) (args : Args) (ω : ℕ → ℕ → List ℝ → ℕ) (gf : ℕ)
    (s : RunState P) (inst : Inst) :
    ((runStep M buildInput decode special args ω gf s inst).2.reset = true ↔
      s.prevIdx ≠ some inst.para_index) ∧
    ((runStep M buildInput decode special args ω gf s inst).2.reset = true →
      (runStep M buildInput decode special args ω gf s inst).2.passedPast =
        some ((M (buildInput false inst).1.dropLast.dropLast
          (buildInput false inst).2.dropLast.dropLast none).2)) ∧
    ((runStep M buildInput decode special args ω gf s inst).2.reset = false →
      (runStep M buildInput decode special args ω gf s inst).2.passedPast = s.past) ∧
    (∀ s', (runStep M buildInput decode special args ω gf s inst).1 = Except.ok s' →
      s'.past = (runStep M buildInput decode special args ω gf s inst).2.passedPast) := by
  refine ⟨?_, ?_, ?_, fun s' h => runStep_ok_past M buildInput decode special args ω gf
    s inst s' h⟩
  · rw [runStep_info]
    simp
  · intro hr
    rw [runStep_info] at hr ⊢
    simp only [] at hr
    simp only [hr, if_true]
  · intro hr
    rw [runStep_info] at hr ⊢
    simp only [] at hr
    simp only [hr, Bool.false_eq_true, if_false]

/-- Counterexample to C7 as stated: after the first instance of a group,
the state passed to the second instance is the PRIMED state `[9, 8]`, not
the state `[9, 8, 8, 7, 6]` that the first `sample_sequence` call's local
`past` ended with — `sample_sequence` returns no CachedState at all. -/
theorem C7_counterexample :
    (runStep Mfix buildFix decodeFix [0] argsFix (fun _ _ _ => 1) 1
        ⟨none, none, [], 0⟩ instFix).1 =
      Except.ok ⟨some 0, some [9, 8],
        [⟨[1, 2], [⟨0, [], [2], 1, 0, 0, false⟩]⟩], 1⟩ ∧
    (runStep Mfix buildFix decodeFix [0] argsFix (fun _ _ _ => 1) 1
        ⟨some 0, some [9, 8], [⟨[1, 2], [⟨0, [], [2], 1, 0, 0, false⟩]⟩], 1⟩
        instFix).2.passedPast = some [9, 8] ∧
    (sampleSequence Mfix buildFix [0] argsFix (fun _ _ _ => 1) 1 instFix
        (some [9, 8])).pastFinal ≠ [9, 8] := by
  refine ⟨?_, ?_, ?_⟩
  · rw [runStep_eval Mfix buildFix decodeFix [0] argsFix (fun _ _ _ => 1) 1
      ⟨none, none, [], 0⟩ instFix (some [9, 8]) rfl { instFix with question := [] }
      (by rw [ssFix (fun _ _ _ => 1) 1])
      [⟨[1, 2], [⟨0, [], [2], 1, 0, 0, false⟩]⟩] rfl]
    rfl
  · rw [runStep_info]
    rfl
  · rw [ssFix (fun _ _ _ => 1) 1]
    decide

/-- Witness for C7 at the toy fixture (first instance: reset occurs). -/
theorem C7_cache_management_witness :
    (runStep Mfix buildFix decodeFix [0] argsFix (fun _ _ _ => 1) 1
        ⟨none, none, [], 0⟩ instFix).2.reset = true ↔
      (⟨none, none, [], 0⟩ : RunState (List ℕ)).prevIdx ≠ some instFix.para_index :=
  (C7_cache_management Mfix buildFix decodeFix [0] argsFix (fun _ _ _ => 1) 1
    ⟨none, none, [], 0⟩ instFix).1

/-! ### Claims C9 and C10 -/

/-- C9 (amended): when a paragraph entry already exists at `para_index`,
the assembler aborts via the failed assertion IF AND ONLY IF the decoded
paragraph text differs from the stored context; when the texts are
identical AND the decoded answer occurs in the decoded paragraph, it
appends a new QA record at the end of that entry's list (arrival order);
when the texts are identical but the answer text is absent, the run aborts
with the `str.index` lookup error instead of appending. -/
theorem C9_paragraph_consistency (decode : List ℕ → Bool → List ℕ)
    (paragraphs : List Para) (qnum : ℕ) (out : Inst)
    (h : out.para_index < paragraphs.length) :
    (assembleStep decode paragraphs qnum out = Except.error AsmErr.paragraphMismatch ↔
      decode out.paragraph false ≠ (paragraphs.get ⟨out.para_index, h⟩).context) ∧
    (∀ st, decode out.paragraph false = (paragraphs.get ⟨out.para_index, h⟩).context →
      subIndex (decode out.paragraph false) (decode out.answer true) = some st →
      assembleStep decode paragraphs qnum out =
        Except.ok (paragraphs.set out.para_index
          { context := (paragraphs.get ⟨out.para_index, h⟩).context,
            qas := (paragraphs.get ⟨out.para_index, h⟩).qas ++
              [⟨qnum, decode out.question true, decode out.answer true, st,
                out.qclass, out.algorithm, false⟩] })) ∧
    (decode out.paragraph false = (paragraphs.get ⟨out.para_index, h⟩).context →
      subIndex (decode out.paragraph false) (decode out.answer true) = none →
      assembleStep decode paragraphs qnum out = Except.error AsmErr.answerNotFound) := by
  refine ⟨?_, ?_, ?_⟩
  · simp only [assembleStep]
    rw [dif_pos h]
    by_cases hctx : decode out.paragraph false = (paragraphs.get ⟨out.para_index, h⟩).context
    · rw [if_pos hctx]
      constructor
      · intro hcontra
        rcases hsub : subIndex (decode out.paragraph false) (decode out.answer true)
          with _ | st
        · rw [hsub] at hcontra
          simp at hcontra
        · rw [hsub] at hcontra
          simp at hcontra
      · intro hne
        exact absurd hctx hne
    · rw [if_neg hctx]
      constructor
      · intro _
        exact hctx
      · intro _
        rfl
  · intro st hctx hsub
    simp only [assembleStep]
    rw [dif_pos h, if_pos hctx, hsub]
  · intro hctx hsub
    simp only [assembleStep]
    rw [dif_pos h, if_pos hctx, hsub]

/-- Counterexample to C9 as stated: identical paragraph texts, but the
decoded answer `[7]` does not occur in the decoded paragraph `[1, 2]` —
the assembler aborts with the lookup error instead of appending. -/
theorem C9_counterexample :
    assembleStep decodeFix [⟨[1, 2], []⟩] 0 ⟨[1, 2], [7], [], 0, 0, 0⟩ =
      Except.error AsmErr.answerNotFound := rfl

/-- Witness for C9 at a concrete input. -/
theorem C9_paragraph_consistency_witness :
    assembleStep decodeFix [⟨[1, 2], []⟩] 0 ⟨[1, 2], [7], [], 0, 0, 0⟩ =
        Except.error AsmErr.paragraphMismatch ↔
      decodeFix (⟨[1, 2], [7], [], 0, 0, 0⟩ : Inst).paragraph false ≠
        (([⟨[1, 2], []⟩] : List Para).get ⟨0, by norm_num⟩).context :=
  (C9_paragraph_consistency decodeFix [⟨[1, 2], []⟩] 0 ⟨[1, 2], [7], [], 0, 0, 0⟩
    (by norm_num)).1

/-- C10: the assembler decides that an entry "already exists" by comparing
`para_index` with the CURRENT NUMBER of entries, so an instance whose
`para_index` is at least the entry count gets a new entry appended at the
END of the list (at position equal to the old length, not at
`para_index`), with no error for the skipped index; a later instance
carrying the skipped index is then compared against whatever paragraph
happens to sit at that position — the wrong one, as the concrete scenario
shows (paragraph `[5]` arrives with `para_index = 1` onto an empty list
and lands at position 0; the next instance, `para_index = 0` with
paragraph `[4]`, is compared against `[5]` and aborts). -/
theorem C10_positional_keying (decode : List ℕ → Bool → List ℕ)
    (paragraphs : List Para) (qnum : ℕ) (out : Inst)
    (h : paragraphs.length ≤ out.para_index) (st : ℕ)
    (hst : subIndex (decode out.paragraph false) (decode out.answer true) = some st) :
    (assembleStep decode paragraphs qnum out =
      Except.ok (paragraphs ++ [⟨decode out.paragraph false,
        [⟨qnum, decode out.question true, decode out.answer true, st, out.qclass,
          out.algorithm, false⟩]⟩])) ∧
    (assembleStep decodeFix [] 0 ⟨[5], [5], [], 0, 0, 1⟩ =
      Except.ok [⟨[5], [⟨0, [], [5], 0, 0, 0, false⟩]⟩]) ∧
    (assembleStep decodeFix [⟨[5], [⟨0, [], [5], 0, 0, 0, false⟩]⟩] 1
        ⟨[4], [4], [], 0, 0, 0⟩ = Except.error AsmErr.paragraphMismatch) := by
  refine ⟨?_, rfl, rfl⟩
  simp only [assembleStep]
  rw [dif_neg (by omega), hst]

/-- Witness for C10 at a concrete input. -/
theorem C10_positional_keying_witness :
    assembleStep decodeFix [] 0 ⟨[3], [3], [], 0, 0, 2⟩ =
      Except.ok ([] ++ [⟨decodeFix (⟨[3], [3], [], 0, 0, 2⟩ : Inst).paragraph false,
        [⟨0, decodeFix (⟨[3], [3], [], 0, 0, 2⟩ : Inst).question true,
          decodeFix (⟨[3], [3], [], 0, 0, 2⟩ : Inst).answer true, 0, 0, 0,
          false⟩]⟩]) :=
  (C10_positional_keying decodeFix [] 0 ⟨[3], [3], [], 0, 0, 2⟩ (by norm_num) 0
    (by decide)).1

end Squash
